import Mathlib

/-!
Verification of the rust_core memory/retrieval subsystem.

This file shallowly embeds the Rust sources of the repository
(`src/rust_core/src/similarity.rs`, `memory_engine.rs`, `embedding_cache.rs`)
in Lean and proves the specified properties about the embedding.

Modelling conventions:
- `f32`/`f64` values are modelled as exact rationals (`ℚ`); floating-point
  rounding is idealized to exact arithmetic.
- A square root never produces a rational, so a cosine-similarity value is
  represented by the data that determines it: the dot product and the two
  squared norms.  The denoted real value is recovered by (noncomputable)
  valuation functions used only inside theorem statements.
- The Rust guard `norm_a.sqrt() * norm_b.sqrt() < 1e-8` is expressed by the
  (exactly equivalent, for nonnegative arguments) rational comparison
  `norm_a * norm_b < 1/10^16`; the equivalence is proved below
  (`sqrt_mul_sqrt_lt_iff`).
- Hash functions (xxh3) are treated as parameters: every theorem holds for an
  arbitrary hash function, which subsumes the concrete xxh3.
-/

namespace RustCore

/-! ### similarity.rs -/

/-- Sum of pairwise products, the `dot` accumulator of the Rust loop. -/
def dotQ (a b : List ℚ) : ℚ :=
  (List.zipWith (fun x y => x * y) a b).sum

/-- Sum of squares: the `norm_a`/`norm_b`/`d_norm` accumulators before `sqrt`. -/
def sumSq (a : List ℚ) : ℚ :=
  (a.map (fun x => x * x)).sum

/-- The squared threshold: the source compares a product of square roots
against `1e-8`, which for nonnegative arguments is equivalent to comparing
the product of the squared norms against `1e-16`. -/
def sqThreshold : ℚ := 1 / 10 ^ 16

/-- Result of `cosine_similarity_impl`: either the literal `0.0` returned by a
guard, or the value `dot / (sqrt na * sqrt nb)` represented by its data. -/
inductive SimResult where
  | zero : SimResult
  | ratio : ℚ → ℚ → ℚ → SimResult
deriving DecidableEq, Repr

/-- Denotation of a `SimResult` as a real number. -/
noncomputable def SimResult.val : SimResult → ℝ
  | .zero => 0
  | .ratio d na nb => (d : ℝ) / (Real.sqrt (na : ℝ) * Real.sqrt (nb : ℝ))

/-- Shallow embedding of `cosine_similarity_impl` (similarity.rs:26-49). -/
def cosine_similarity_impl (a b : List ℚ) : SimResult :=
  if a.length ≠ b.length ∨ a.isEmpty then .zero
  else
    -- denom = sqrt (sumSq a) * sqrt (sumSq b); denom < 1e-8 ↔ the product
    -- of squared norms is below 1e-16
    if sumSq a * sumSq b < sqThreshold then .zero
    else .ratio (dotQ a b) (sumSq a) (sumSq b)

/-- Shallow embedding of the `compute_sim` closure of `batch_cosine_impl`
(similarity.rs:77-94).  A produced candidate carries the document index, the
dot product with the query and the document's squared norm. -/
def compute_sim (query : List ℚ) (i : ℕ) (doc : List ℚ) : Option (ℕ × ℚ × ℚ) :=
  if doc.length ≠ query.length then none
  else
    -- d_norm.sqrt() < 1e-8 ↔ sumSq doc < 1e-16
    if sumSq doc < sqThreshold then none
    else some (i, dotQ query doc, sumSq doc)

/-- Denotation of a candidate's similarity: `dot / (q_norm * d_norm)` where
`qsq` is the query's squared norm. -/
noncomputable def simVal (qsq : ℚ) (c : ℕ × ℚ × ℚ) : ℝ :=
  (c.2.1 : ℝ) / (Real.sqrt (qsq : ℝ) * Real.sqrt (c.2.2 : ℝ))

/-- Denotation of the quantity `d / sqrt n` compared by the sort.  Junk inputs
(nonpositive `n`, never produced by the algorithm) are mapped to `0` so that
the comparator below is a total preorder on the whole type. -/
noncomputable def cval (d n : ℚ) : ℝ :=
  if 0 < n then (d : ℝ) / Real.sqrt (n : ℝ) else 0

/-- Computable decision of `cval d2 n2 ≤ cval d1 n1`, i.e. the descending
comparator `partial_cmp_f32_desc` of the source restricted to its use on
well-formed candidates (where it agrees with comparing the real similarity
values; proved in `simGe_iff`). -/
def simGe (d1 n1 d2 n2 : ℚ) : Bool :=
  let e1 : ℚ := if 0 < n1 then d1 else 0
  let m1 : ℚ := if 0 < n1 then n1 else 1
  let e2 : ℚ := if 0 < n2 then d2 else 0
  let m2 : ℚ := if 0 < n2 then n2 else 1
  if 0 ≤ e1 then decide (e2 ≤ 0) || decide (e2 ^ 2 * m1 ≤ e1 ^ 2 * m2)
  else decide (e2 < 0) && decide (e1 ^ 2 * m2 ≤ e2 ^ 2 * m1)

/-- Comparator on candidates: descending by similarity (the query norm is a
common positive factor and cancels). -/
def candGe (x y : ℕ × ℚ × ℚ) : Bool :=
  simGe x.2.1 x.2.2 y.2.1 y.2.2

/-- The candidate pass of `batch_cosine_impl`: enumerate the documents and
keep those with a matching dimension and a non-negligible norm.  The
sequential and the Rayon path of the source both produce exactly this
ordered sequence (see the refinement theorem below). -/
def candidatesOf (query : List ℚ) (docs : List (List ℚ)) : List (ℕ × ℚ × ℚ) :=
  docs.enum.filterMap (fun p => compute_sim query p.1 p.2)

/-- Shallow embedding of `batch_cosine_impl` (similarity.rs:65-119).
`select_nth_unstable_by(top_k, desc)` followed by `truncate(top_k)` and a
final descending sort is modelled as a full stable descending sort followed
by `take top_k`: the two agree up to the order among tied similarity values,
which the source leaves unspecified. -/
def batch_cosine_impl (query : List ℚ) (docs : List (List ℚ)) (top_k : ℕ) :
    List (ℕ × ℚ × ℚ) :=
  if query.isEmpty ∨ docs.isEmpty then []
  else
    -- q_norm.sqrt() < 1e-8 ↔ sumSq query < 1e-16
    if sumSq query < sqThreshold then []
    else ((candidatesOf query docs).mergeSort candGe).take top_k

/-- The validity predicate of the spec: a document enters the result pool iff
its dimension matches the query and its norm is at least `1e-8`. -/
def validDoc (query doc : List ℚ) : Bool :=
  decide (doc.length = query.length) && !decide (sumSq doc < sqThreshold)

/-- Chunked (parallel) variant of the candidate pass: each chunk of the
enumerated document list is processed independently and the per-chunk outputs
are concatenated in chunk order, as Rayon's ordered `collect` does. -/
def candidatesOfChunks (query : List ℚ) (chunks : List (List (ℕ × List ℚ))) :
    List (ℕ × ℚ × ℚ) :=
  (chunks.map (fun c => c.filterMap (fun p => compute_sim query p.1 p.2))).flatten

/-- `batch_cosine_impl` computed through an arbitrary chunking of the
enumerated documents (the parallel execution strategy). -/
def batch_cosine_par (query : List ℚ) (docs : List (List ℚ)) (top_k : ℕ)
    (chunks : List (List (ℕ × List ℚ))) : List (ℕ × ℚ × ℚ) :=
  if query.isEmpty ∨ docs.isEmpty then []
  else
    if sumSq query < sqThreshold then []
    else ((candidatesOfChunks query chunks).mergeSort candGe).take top_k

/-! ### memory_engine.rs -/

/-- The stop-word list of the source (RU + EN). -/
def STOP_WORDS : List String :=
  ["я", "ты", "он", "она", "мы", "вы", "они", "в", "на", "и",
   "с", "по", "для", "от", "к", "не", "что", "это", "как", "но",
   "the", "is", "are", "a", "an", "in", "on", "for", "to", "of"]

/-- Abstract model of the Unicode text primitives the engine calls: `words`
stands for Rust `split_whitespace` and `lower` for Unicode `to_lowercase`.
Both are external library functions (and Lean's ASCII `toLower` differs from
the source's Unicode lowercasing), so they are treated as parameters, like
the hash; every theorem below holds for an arbitrary `TextModel`. -/
structure TextModel where
  words : String → List String
  lower : String → String

/-- The first `n` characters of a string: `chars().take(n).collect()`. -/
def takeChars (s : String) (n : ℕ) : String :=
  String.mk (s.data.take n)

/-- Shallow embedding of `extract_keywords` (memory_engine.rs:52-64):
lowercased words of length `> 3` that are not stop words, first ten. -/
def extract_keywords (tm : TextModel) (text : String) : List String :=
  ((tm.words text).filterMap (fun w =>
    let lower := tm.lower w
    if lower.length > 3 ∧ ¬ STOP_WORDS.contains lower then some lower
    else none)).take 10

/-- An episodic record.  The `timestamp` field holds the parse result of the
RFC3339 string: `some t` with `t` the instant in hours (exact rational), or
`none` for an unparseable string. -/
structure Episode where
  timestamp : Option ℚ
  user_input : String
  response : String
  emotion : String
  importance : ℤ
  keywords : List String
deriving DecidableEq, Repr

/-- The text that `add_episode` feeds to the keyword index: the combined
`user_input` and `response`, space separated. -/
def combinedText (ep : Episode) : String :=
  ep.user_input ++ " " ++ ep.response

/-- One update of the inverted index: push `idx` onto the posting list of
hash `h` (`ki.entry(h).or_default().push(idx)`). -/
def indexWord (ki : ℕ → List ℕ) (h idx : ℕ) : ℕ → List ℕ :=
  fun h2 => if h2 = h then ki h2 ++ [idx] else ki h2

/-- Shallow embedding of `index_text` (memory_engine.rs:309-317): index every
lowercased whitespace word of length `> 2` under its hash.  `hashW` is the
abstract stand-in for `word_hash` (xxh3). -/
def index_text (tm : TextModel) (hashW : String → ℕ) (ki : ℕ → List ℕ)
    (idx : ℕ) (text : String) : ℕ → List ℕ :=
  (tm.words text).foldl (fun m w =>
    if (tm.lower w).length > 2 then indexWord m (hashW (tm.lower w)) idx else m) ki

/-- Shallow embedding of `rebuild_index` (memory_engine.rs:319-325): clear
and re-index every episode's combined text at its current position. -/
def rebuild_index (tm : TextModel) (hashW : String → ℕ) (eps : List Episode) :
    ℕ → List ℕ :=
  eps.enum.foldl (fun m p => index_text tm hashW m p.1 (combinedText p.2))
    (fun _ => [])

/-- The episodic state of `MemoryEngine`: the episode sequence and the
keyword inverted index (hash of a word to the positions containing it). -/
structure MemState where
  episodic : List Episode
  index : ℕ → List ℕ

/-- Age of an episode in hours at instant `now`, exactly as `evict_episodes`
computes it: an unparseable timestamp counts as age 1.0, and the result is
clamped below by 1.0. -/
def ageHours (now : ℚ) (ep : Episode) : ℚ :=
  max (match ep.timestamp with
       | some t => now - t
       | none => 1) 1

/-- The value-density eviction score: `importance / max(age_hours, 1.0)`. -/
def evictionScore (now : ℚ) (ep : Episode) : ℚ :=
  (ep.importance : ℚ) / ageHours now ep

/-- Shallow embedding of the removal part of `evict_episodes`
(memory_engine.rs:267-304): score every position, stable-sort ascending by
score, take the `max 1 (maxE / 10)` lowest, remove those positions in
descending order. -/
def evict_episodes (maxE : ℕ) (now : ℚ) (eps : List Episode) : List Episode :=
  let removeCount := max 1 (maxE / 10)
  let scored := eps.enum.map (fun p => (p.1, evictionScore now p.2))
  let sorted := scored.mergeSort (fun a b => decide (a.2 ≤ b.2))
  let toRemove := ((sorted.take removeCount).map (fun p => p.1)).mergeSort
    (fun a b => decide (b ≤ a))
  toRemove.foldl (fun l idx => if idx < l.length then l.eraseIdx idx else l) eps

/-- Eviction on the whole state: remove episodes, then rebuild the index
wholesale from the survivors. -/
def evictState (tm : TextModel) (hashW : String → ℕ) (maxE : ℕ) (now : ℚ)
    (s : MemState) : MemState :=
  let eps := evict_episodes maxE now s.episodic
  { episodic := eps, index := rebuild_index tm hashW eps }

/-- Shallow embedding of `add_episode` (memory_engine.rs:130-158): construct
the episode, append it, index the combined text at the new position, then
evict if the count now exceeds `maxE`.  `ts` is the generated timestamp. -/
def add_episode (tm : TextModel) (hashW : String → ℕ) (maxE : ℕ) (now : ℚ)
    (ts : Option ℚ) (user_input response emotion : String) (importance : ℤ)
    (s : MemState) : MemState :=
  let ep : Episode :=
    { timestamp := ts, user_input := user_input, response := response,
      emotion := emotion, importance := importance,
      keywords := extract_keywords tm user_input }
  let idx := s.episodic.length
  let episodic := s.episodic ++ [ep]
  let ki := index_text tm hashW s.index idx (user_input ++ " " ++ response)
  if episodic.length > maxE then
    evictState tm hashW maxE now { episodic := episodic, index := ki }
  else { episodic := episodic, index := ki }

/-- States reachable from the empty engine by any sequence of `add_episode`,
eviction, and (dis)load operations.  A load replaces the episodic sequence
wholesale with arbitrary parsed content and rebuilds the index. -/
inductive Reachable (tm : TextModel) (hashW : String → ℕ) (maxE : ℕ) :
    MemState → Prop where
  | init : Reachable tm hashW maxE ⟨[], fun _ => []⟩
  | add (s : MemState) (now : ℚ) (ts : Option ℚ)
      (user_input response emotion : String) (importance : ℤ) :
      Reachable tm hashW maxE s →
      Reachable tm hashW maxE
        (add_episode tm hashW maxE now ts user_input response emotion importance s)
  | evict (s : MemState) (now : ℚ) :
      Reachable tm hashW maxE s →
      Reachable tm hashW maxE (evictState tm hashW maxE now s)
  | load (s : MemState) (eps : List Episode) :
      Reachable tm hashW maxE s →
      Reachable tm hashW maxE ⟨eps, rebuild_index tm hashW eps⟩

/-- Consistency of the keyword index with the episodic sequence: every
position stored under any hash is a valid index into the episodic vector. -/
def IndexValid (s : MemState) : Prop :=
  ∀ h i, i ∈ s.index h → i < s.episodic.length

/-- Completeness of the keyword index: each indexable word (length `> 2`
after lowercasing) of each episode's combined text maps to that episode's
current position. -/
def IndexComplete (tm : TextModel) (hashW : String → ℕ) (s : MemState) : Prop :=
  ∀ i ep, s.episodic.get? i = some ep →
    ∀ w ∈ tm.words (combinedText ep), (tm.lower w).length > 2 →
      i ∈ s.index (hashW (tm.lower w))

/-- Query tokens of `get_relevant_context`: lowercased whitespace words of
length `> 2` (length in characters). -/
def queryTokens (tm : TextModel) (query : String) : List String :=
  (tm.words query).filterMap (fun w =>
    let lower := tm.lower w
    if lower.length ≤ 2 then none else some lower)

/-- Accumulated keyword hit count of episode position `idx` for a query: one
hit per occurrence of `idx` in the posting list of each query token. -/
def hitCount (tm : TextModel) (hashW : String → ℕ) (ki : ℕ → List ℕ)
    (query : String) (idx : ℕ) : ℕ :=
  ((queryTokens tm query).map (fun w => (ki (hashW w)).count idx)).sum

/-- Shallow embedding of `get_relevant_context` (memory_engine.rs:161-194).
The positions that received at least one hit are collected (the arbitrary
`HashMap` iteration order is canonicalized), looked up (positions beyond the
episodic sequence are skipped, as `episodic.get(idx)` does), scored as
`hits * importance`, stable-sorted descending by score, and truncated.  Each
returned triple is `(timestamp, first 80 characters of user_input, score)`. -/
def get_relevant_context (tm : TextModel) (hashW : String → ℕ) (s : MemState)
    (query : String) (max_items : ℕ) : List (Option ℚ × String × ℤ) :=
  let matched :=
    (((queryTokens tm query).map (fun w => s.index (hashW w))).flatten).dedup
  let results := matched.filterMap (fun idx =>
    (s.episodic.get? idx).map (fun ep =>
      (ep.timestamp, takeChars ep.user_input 80,
        (hitCount tm hashW s.index query idx : ℤ) * ep.importance)))
  (results.mergeSort (fun a b => decide (b.2.2 ≤ a.2.2))).take max_items

/-- An entry of working memory. -/
structure WorkingEntry where
  role : String
  content : String
  timestamp : String
deriving DecidableEq, Repr

/-- The trimming loop of `add_to_working`:
`while working.len() > working_size { working.remove(0); }`. -/
def trimFront {α : Type} (ws : ℕ) (l : List α) : List α :=
  if l.length > ws then trimFront ws l.tail else l
termination_by l.length
decreasing_by
  rename_i h
  have : l.length ≠ 0 := by omega
  have htail : l.tail.length = l.length - 1 := List.length_tail l
  omega

/-- Shallow embedding of `add_to_working` (memory_engine.rs:103-113): append
the new entry, then trim from the front while over capacity. -/
def add_to_working {α : Type} (ws : ℕ) (w : List α) (e : α) : List α :=
  trimFront ws (w ++ [e])

/-! ### embedding_cache.rs -/

/-- A cache entry: hashed key, stored vector, access counter.  The source
keeps the vector map and the access-count map as two `DashMap`s over the
same key set, updated in lockstep at every call site; the embedding fuses
them into one record per key. -/
structure CacheEntry (K : Type) where
  key : K
  vec : List ℚ
  count : ℕ
deriving DecidableEq

/-- The `EmbeddingCache` state: entries plus the atomic hit/miss counters.
`maxSize` is the construction-time capacity.  `K` is the hashed-key type and
the hash function is abstract, like `hashW` for the engine. -/
structure CacheState (K : Type) where
  entries : List (CacheEntry K)
  hits : ℕ
  misses : ℕ

/-- Lookup by hashed key. -/
def cacheFind {K : Type} [DecidableEq K] (s : CacheState K) (h : K) :
    Option (CacheEntry K) :=
  s.entries.find? (fun e => e.key = h)

/-- Shallow embedding of `get` (embedding_cache.rs:52-65): on a hit, bump the
key's access counter and the hit counter and return the vector; on a miss,
bump the miss counter. -/
def cacheGet {K : Type} [DecidableEq K] (hash : String → K) (s : CacheState K)
    (text : String) : Option (List ℚ) × CacheState K :=
  let h := hash text
  match cacheFind s h with
  | some e =>
    (some e.vec,
     { s with
        entries := s.entries.map (fun e2 =>
          if e2.key = h then { e2 with count := e2.count + 1 } else e2),
        hits := s.hits + 1 })
  | none => (none, { s with misses := s.misses + 1 })

/-- Shallow embedding of `evict_lru` (embedding_cache.rs:127-139): snapshot
the access counts, stable-sort ascending by count, remove the first
`max 1 (maxSize / 10)` keys from both maps. -/
def evict_lru {K : Type} [DecidableEq K] (maxSize : ℕ) (s : CacheState K) :
    CacheState K :=
  let evictCount := max 1 (maxSize / 10)
  let sorted := s.entries.mergeSort (fun a b => decide (a.count ≤ b.count))
  let victims := (sorted.take evictCount).map (fun e => e.key)
  { s with entries := s.entries.filter (fun e => ! victims.contains e.key) }

/-- Shallow embedding of `put` (embedding_cache.rs:67-74): if the size is
already at or above capacity, evict first; then insert (overwriting any
entry for the key) and set its access counter to 1. -/
def cachePut {K : Type} [DecidableEq K] (hash : String → K) (maxSize : ℕ)
    (s : CacheState K) (text : String) (v : List ℚ) : CacheState K :=
  let h := hash text
  let s2 := if s.entries.length ≥ maxSize then evict_lru maxSize s else s
  { s2 with
      entries := s2.entries.filter (fun e => e.key ≠ h) ++ [⟨h, v, 1⟩] }

/-- Shallow embedding of `clear` (embedding_cache.rs:104-109): drop all
entries and reset both counters. -/
def cacheClear {K : Type} (s : CacheState K) : CacheState K :=
  { entries := [], hits := 0, misses := 0 }

/-- `len` of the cache (embedding_cache.rs:81-84). -/
def cacheSize {K : Type} (s : CacheState K) : ℕ :=
  s.entries.length

/-- `get_stats` (embedding_cache.rs:86-92): `(size, hits, misses)`. -/
def cacheStats {K : Type} (s : CacheState K) : ℕ × ℕ × ℕ :=
  (s.entries.length, s.hits, s.misses)

/-! ### Basic facts about the similarity embedding -/

theorem sumSq_nonneg (a : List ℚ) : 0 ≤ sumSq a := by
  apply List.sum_nonneg
  intro x hx
  obtain ⟨y, _, rfl⟩ := List.mem_map.mp hx
  exact mul_self_nonneg y

theorem sumSq_eq_zero_of_all_zero {a : List ℚ} (h : ∀ x ∈ a, x = 0) :
    sumSq a = 0 := by
  apply List.sum_eq_zero
  intro x hx
  obtain ⟨y, hy, rfl⟩ := List.mem_map.mp hx
  rw [h y hy, mul_zero]

/-- The guard of the source, `sqrt na * sqrt nb < 1e-8`, is equivalent to the
rational comparison `na * nb < 1e-16` used in the embedding. -/
theorem sqrt_mul_sqrt_lt_iff {x y c : ℝ} (hx : 0 ≤ x) (hc : 0 < c) :
    Real.sqrt x * Real.sqrt y < c ↔ x * y < c ^ 2 := by
  rw [← Real.sqrt_mul hx y]
  exact Real.sqrt_lt' hc

theorem sqThreshold_cast : ((sqThreshold : ℚ) : ℝ) = (1 / 10 ^ 8 : ℝ) ^ 2 := by
  norm_num [sqThreshold]

/-- C1, amended part: the similarity result characterized.  Guard cases give
the literal `0.0`; the small-denominator guard fires exactly when the product
of the two norms is below `1e-8`; otherwise the result is the dot product
divided by the product of the norms. -/
theorem cosine_similarity_cases (a b : List ℚ) :
    ((a.length ≠ b.length ∨ a = [] ∨ b = [] ∨ (∀ x ∈ a, x = 0) ∨ (∀ x ∈ b, x = 0)) →
      (cosine_similarity_impl a b).val = 0) ∧
    (Real.sqrt ((sumSq a : ℚ) : ℝ) * Real.sqrt ((sumSq b : ℚ) : ℝ) < 1 / 10 ^ 8 →
      (cosine_similarity_impl a b).val = 0) ∧
    (a.length = b.length → a ≠ [] →
      ¬ Real.sqrt ((sumSq a : ℚ) : ℝ) * Real.sqrt ((sumSq b : ℚ) : ℝ) < 1 / 10 ^ 8 →
      cosine_similarity_impl a b = .ratio (dotQ a b) (sumSq a) (sumSq b) ∧
      (cosine_similarity_impl a b).val =
        (dotQ a b : ℝ) / (Real.sqrt ((sumSq a : ℚ) : ℝ) * Real.sqrt ((sumSq b : ℚ) : ℝ))) := by
  have hguard : Real.sqrt ((sumSq a : ℚ) : ℝ) * Real.sqrt ((sumSq b : ℚ) : ℝ) < 1 / 10 ^ 8 ↔
      sumSq a * sumSq b < sqThreshold := by
    rw [sqrt_mul_sqrt_lt_iff (by exact_mod_cast sumSq_nonneg a) (by norm_num), ← sqThreshold_cast]
    constructor
    · intro h
      exact_mod_cast (by push_cast at h ⊢; exact h : ((sumSq a * sumSq b : ℚ) : ℝ) < (sqThreshold : ℝ))
    · intro h
      exact_mod_cast (by exact_mod_cast h : ((sumSq a * sumSq b : ℚ) : ℝ) < (sqThreshold : ℝ))
  refine ⟨?_, ?_, ?_⟩
  · rintro (h | h | h | h | h)
    · simp [cosine_similarity_impl, h, SimResult.val]
    · subst h
      simp [cosine_similarity_impl, SimResult.val]
    · subst h
      by_cases ha : a = []
      · subst ha
        simp [cosine_similarity_impl, SimResult.val]
      · have hlen : a.length ≠ ([] : List ℚ).length := by simpa using ha
        have hz : cosine_similarity_impl a [] = .zero := by
          rw [cosine_similarity_impl, if_pos (Or.inl hlen)]
        rw [hz]
        rfl
    · have h0 : sumSq a = 0 := sumSq_eq_zero_of_all_zero h
      by_cases hlen : a.length = b.length
      · by_cases hemp : a.isEmpty
        · simp [cosine_similarity_impl, hemp, SimResult.val]
        · have : sumSq a * sumSq b < sqThreshold := by
            rw [h0, zero_mul]; norm_num [sqThreshold]
          simp [cosine_similarity_impl, hlen, hemp, this, SimResult.val]
      · simp [cosine_similarity_impl, hlen, SimResult.val]
    · have h0 : sumSq b = 0 := sumSq_eq_zero_of_all_zero h
      by_cases hlen : a.length = b.length
      · by_cases hemp : a.isEmpty
        · simp [cosine_similarity_impl, hemp, SimResult.val]
        · have : sumSq a * sumSq b < sqThreshold := by
            rw [h0, mul_zero]; norm_num [sqThreshold]
          simp [cosine_similarity_impl, hlen, hemp, this, SimResult.val]
      · simp [cosine_similarity_impl, hlen, SimResult.val]
  · intro h
    rw [hguard] at h
    by_cases hlen : a.length = b.length
    · by_cases hemp : a.isEmpty
      · simp [cosine_similarity_impl, hemp, SimResult.val]
      · simp [cosine_similarity_impl, hlen, hemp, h, SimResult.val]
    · simp [cosine_similarity_impl, hlen, SimResult.val]
  · intro hlen hne hbig
    rw [hguard] at hbig
    have hemp : a.isEmpty = false := by
      simp [List.isEmpty_iff, hne]
    have : cosine_similarity_impl a b = .ratio (dotQ a b) (sumSq a) (sumSq b) := by
      simp [cosine_similarity_impl, hlen, hemp, hbig]
    exact ⟨this, by rw [this]; rfl⟩

/-- C1, counterexample to the claim as stated: with `a = [1e-9]` and
`b = [1e9]`, the norm of `a` is `1e-9 < 1e-8`, yet the result is `1.0`,
not `0.0` — the source guards on the product of the norms, not on each
norm individually. -/
theorem cosine_similarity_small_norm_counterexample :
    Real.sqrt ((sumSq [(1 : ℚ) / 10 ^ 9] : ℚ) : ℝ) < 1 / 10 ^ 8 ∧
    (cosine_similarity_impl [(1 : ℚ) / 10 ^ 9] [(10 : ℚ) ^ 9]).val = 1 := by
  have hs : sumSq [(1 : ℚ) / 10 ^ 9] = 1 / 10 ^ 18 := by
    norm_num [sumSq]
  have hsr : Real.sqrt ((sumSq [(1 : ℚ) / 10 ^ 9] : ℚ) : ℝ) = 1 / 10 ^ 9 := by
    rw [hs]
    rw [show (((1 : ℚ) / 10 ^ 18 : ℚ) : ℝ) = ((1 : ℝ) / 10 ^ 9) ^ 2 by push_cast; norm_num]
    exact Real.sqrt_sq (by norm_num)
  constructor
  · rw [hsr]; norm_num
  · have hres : cosine_similarity_impl [(1 : ℚ) / 10 ^ 9] [(10 : ℚ) ^ 9] =
        .ratio 1 (1 / 10 ^ 18) (10 ^ 18) := by
      have h1 : dotQ [(1 : ℚ) / 10 ^ 9] [(10 : ℚ) ^ 9] = 1 := by norm_num [dotQ]
      have h2 : sumSq [(10 : ℚ) ^ 9] = 10 ^ 18 := by norm_num [sumSq]
      have h3 : ¬ sumSq [(1 : ℚ) / 10 ^ 9] * sumSq [(10 : ℚ) ^ 9] < sqThreshold := by
        rw [hs, h2]; norm_num [sqThreshold]
      rw [cosine_similarity_impl, if_neg (by simp), if_neg h3, h1, hs, h2]
    rw [hres]
    show (1 : ℚ) / (Real.sqrt _ * Real.sqrt _) = 1
    have ha : Real.sqrt (((1 : ℚ) / 10 ^ 18 : ℚ) : ℝ) = 1 / 10 ^ 9 := by
      rw [show (((1 : ℚ) / 10 ^ 18 : ℚ) : ℝ) = ((1 : ℝ) / 10 ^ 9) ^ 2 by push_cast; norm_num]
      exact Real.sqrt_sq (by norm_num)
    have hb : Real.sqrt (((10 : ℚ) ^ 18 : ℚ) : ℝ) = 10 ^ 9 := by
      rw [show (((10 : ℚ) ^ 18 : ℚ) : ℝ) = ((10 : ℝ) ^ 9) ^ 2 by push_cast; norm_num]
      exact Real.sqrt_sq (by norm_num)
    rw [ha, hb]
    norm_num

/-- C1, witness: the amended theorem applied at concrete inputs, both for a
zero case (all-zero second vector) and for the generic ratio case. -/
theorem cosine_similarity_cases_witness :
    (cosine_similarity_impl [(1 : ℚ)] [(0 : ℚ)]).val = 0 ∧
    cosine_similarity_impl [(1 : ℚ)] [(1 : ℚ)] = .ratio 1 1 1 := by
  constructor
  · exact (cosine_similarity_cases [(1 : ℚ)] [(0 : ℚ)]).1
      (Or.inr (Or.inr (Or.inr (Or.inr (by simp)))))
  · have h := ((cosine_similarity_cases [(1 : ℚ)] [(1 : ℚ)]).2.2 rfl (by simp)
      (by norm_num [sumSq, Real.sqrt_one])).1
    simpa [dotQ, sumSq] using h

/-- Core comparison fact: for positive squared norms, the sign-and-square
decision procedure agrees with comparing the real quotients. -/
theorem simGe_core (a m b k : ℚ) (hm : 0 < m) (hk : 0 < k) :
    ((if 0 ≤ a then b ≤ 0 ∨ b ^ 2 * m ≤ a ^ 2 * k
      else b < 0 ∧ a ^ 2 * k ≤ b ^ 2 * m) ↔
     (b : ℝ) / Real.sqrt (k : ℝ) ≤ (a : ℝ) / Real.sqrt (m : ℝ)) := by
  have hmr : (0 : ℝ) < (m : ℚ) := by exact_mod_cast hm
  have hkr : (0 : ℝ) < (k : ℚ) := by exact_mod_cast hk
  have hs1 : (0 : ℝ) < Real.sqrt (m : ℝ) := Real.sqrt_pos.mpr hmr
  have hs2 : (0 : ℝ) < Real.sqrt (k : ℝ) := Real.sqrt_pos.mpr hkr
  have hmm : Real.sqrt ((m : ℚ) : ℝ) * Real.sqrt ((m : ℚ) : ℝ) = ((m : ℚ) : ℝ) :=
    Real.mul_self_sqrt hmr.le
  have hkk : Real.sqrt ((k : ℚ) : ℝ) * Real.sqrt ((k : ℚ) : ℝ) = ((k : ℚ) : ℝ) :=
    Real.mul_self_sqrt hkr.le
  rw [div_le_div_iff₀ hs2 hs1]
  by_cases ha : 0 ≤ a
  · have har : (0 : ℝ) ≤ (a : ℚ) := by exact_mod_cast ha
    rw [if_pos ha]
    by_cases hb : b ≤ 0
    · have hbr : ((b : ℚ) : ℝ) ≤ 0 := by exact_mod_cast hb
      exact iff_of_true (Or.inl hb)
        (le_trans (mul_nonpos_of_nonpos_of_nonneg hbr hs1.le) (mul_nonneg har hs2.le))
    · have hb' : 0 < b := lt_of_not_le hb
      have hbr : (0 : ℝ) < (b : ℚ) := by exact_mod_cast hb'
      have hsq : ((b : ℚ) : ℝ) * Real.sqrt (m : ℝ) ≤ ((a : ℚ) : ℝ) * Real.sqrt (k : ℝ) ↔
          ((b ^ 2 * m : ℚ) : ℝ) ≤ ((a ^ 2 * k : ℚ) : ℝ) := by
        rw [mul_self_le_mul_self_iff (mul_nonneg hbr.le hs1.le) (mul_nonneg har hs2.le)]
        constructor
        · intro h
          calc ((b ^ 2 * m : ℚ) : ℝ)
              = ((b : ℚ) : ℝ) * Real.sqrt (m : ℝ) * (((b : ℚ) : ℝ) * Real.sqrt (m : ℝ)) := by
                push_cast; rw [mul_mul_mul_comm, hmm]; ring
            _ ≤ ((a : ℚ) : ℝ) * Real.sqrt (k : ℝ) * (((a : ℚ) : ℝ) * Real.sqrt (k : ℝ)) := h
            _ = ((a ^ 2 * k : ℚ) : ℝ) := by
                push_cast; rw [mul_mul_mul_comm, hkk]; ring
        · intro h
          calc ((b : ℚ) : ℝ) * Real.sqrt (m : ℝ) * (((b : ℚ) : ℝ) * Real.sqrt (m : ℝ))
              = ((b ^ 2 * m : ℚ) : ℝ) := by
                push_cast; rw [mul_mul_mul_comm, hmm]; ring
            _ ≤ ((a ^ 2 * k : ℚ) : ℝ) := h
            _ = ((a : ℚ) : ℝ) * Real.sqrt (k : ℝ) * (((a : ℚ) : ℝ) * Real.sqrt (k : ℝ)) := by
                push_cast; rw [mul_mul_mul_comm, hkk]; ring
      rw [or_iff_right hb]
      rw [show (b ^ 2 * m ≤ a ^ 2 * k ↔ ((b ^ 2 * m : ℚ) : ℝ) ≤ ((a ^ 2 * k : ℚ) : ℝ)) from
        ⟨fun h => by exact_mod_cast h, fun h => by exact_mod_cast h⟩]
      exact hsq.symm
  · have ha' : a < 0 := lt_of_not_le ha
    have har : ((a : ℚ) : ℝ) < 0 := by exact_mod_cast ha'
    rw [if_neg ha]
    by_cases hb : b < 0
    · have hbr : ((b : ℚ) : ℝ) < 0 := by exact_mod_cast hb
      have hsq : ((b : ℚ) : ℝ) * Real.sqrt (m : ℝ) ≤ ((a : ℚ) : ℝ) * Real.sqrt (k : ℝ) ↔
          ((a ^ 2 * k : ℚ) : ℝ) ≤ ((b ^ 2 * m : ℚ) : ℝ) := by
        rw [show ((b : ℚ) : ℝ) * Real.sqrt (m : ℝ) ≤ ((a : ℚ) : ℝ) * Real.sqrt (k : ℝ) ↔
            -(((a : ℚ) : ℝ) * Real.sqrt (k : ℝ)) ≤ -(((b : ℚ) : ℝ) * Real.sqrt (m : ℝ)) from
          (neg_le_neg_iff).symm]
        rw [mul_self_le_mul_self_iff
          (by nlinarith [hs2.le, har.le] : (0:ℝ) ≤ -(((a : ℚ) : ℝ) * Real.sqrt (k : ℝ)))
          (by nlinarith [hs1.le, hbr.le] : (0:ℝ) ≤ -(((b : ℚ) : ℝ) * Real.sqrt (m : ℝ)))]
        constructor
        · intro h
          calc ((a ^ 2 * k : ℚ) : ℝ)
              = -(((a : ℚ) : ℝ) * Real.sqrt (k : ℝ)) * -(((a : ℚ) : ℝ) * Real.sqrt (k : ℝ)) := by
                push_cast; rw [neg_mul_neg, mul_mul_mul_comm, hkk]; ring
            _ ≤ -(((b : ℚ) : ℝ) * Real.sqrt (m : ℝ)) * -(((b : ℚ) : ℝ) * Real.sqrt (m : ℝ)) := h
            _ = ((b ^ 2 * m : ℚ) : ℝ) := by
                push_cast; rw [neg_mul_neg, mul_mul_mul_comm, hmm]; ring
        · intro h
          calc -(((a : ℚ) : ℝ) * Real.sqrt (k : ℝ)) * -(((a : ℚ) : ℝ) * Real.sqrt (k : ℝ))
              = ((a ^ 2 * k : ℚ) : ℝ) := by
                push_cast; rw [neg_mul_neg, mul_mul_mul_comm, hkk]; ring
            _ ≤ ((b ^ 2 * m : ℚ) : ℝ) := h
            _ = -(((b : ℚ) : ℝ) * Real.sqrt (m : ℝ)) * -(((b : ℚ) : ℝ) * Real.sqrt (m : ℝ)) := by
                push_cast; rw [neg_mul_neg, mul_mul_mul_comm, hmm]; ring
      rw [and_iff_right hb]
      rw [show (a ^ 2 * k ≤ b ^ 2 * m ↔ ((a ^ 2 * k : ℚ) : ℝ) ≤ ((b ^ 2 * m : ℚ) : ℝ)) from
        ⟨fun h => by exact_mod_cast h, fun h => by exact_mod_cast h⟩]
      exact hsq.symm
    · have hb' : 0 ≤ b := le_of_not_lt hb
      have hbr : (0 : ℝ) ≤ ((b : ℚ) : ℝ) := by exact_mod_cast hb'
      refine iff_of_false (fun h => hb h.1) (not_le.mpr ?_)
      calc ((a : ℚ) : ℝ) * Real.sqrt (k : ℝ) < 0 := mul_neg_of_neg_of_pos har hs2
        _ ≤ ((b : ℚ) : ℝ) * Real.sqrt (m : ℝ) := mul_nonneg hbr hs1.le

theorem cval_eq_norm (d n : ℚ) :
    cval d n = ((if 0 < n then d else 0 : ℚ) : ℝ) /
      Real.sqrt (((if 0 < n then n else 1 : ℚ) : ℚ) : ℝ) := by
  by_cases h : 0 < n
  · simp [cval, h]
  · simp [cval, h, Real.sqrt_one]

theorem simGe_unfold (d1 n1 d2 n2 : ℚ) :
    (simGe d1 n1 d2 n2 = true) ↔
      (if 0 ≤ (if 0 < n1 then d1 else 0 : ℚ) then
        ((if 0 < n2 then d2 else 0 : ℚ) ≤ 0 ∨
         (if 0 < n2 then d2 else 0 : ℚ) ^ 2 * (if 0 < n1 then n1 else 1) ≤
           (if 0 < n1 then d1 else 0 : ℚ) ^ 2 * (if 0 < n2 then n2 else 1))
      else
        ((if 0 < n2 then d2 else 0 : ℚ) < 0 ∧
         (if 0 < n1 then d1 else 0 : ℚ) ^ 2 * (if 0 < n2 then n2 else 1) ≤
           (if 0 < n2 then d2 else 0 : ℚ) ^ 2 * (if 0 < n1 then n1 else 1))) := by
  rw [simGe]
  by_cases h : 0 ≤ (if 0 < n1 then d1 else 0 : ℚ) <;> simp [h]

/-- The comparator `simGe` decides the (descending) comparison of the denoted
real values `cval`, on all inputs. -/
theorem simGe_iff (d1 n1 d2 n2 : ℚ) :
    simGe d1 n1 d2 n2 = true ↔ cval d2 n2 ≤ cval d1 n1 := by
  rw [cval_eq_norm d1 n1, cval_eq_norm d2 n2, simGe_unfold]
  exact simGe_core _ _ _ _
    (by by_cases h : 0 < n1 <;> simp [h])
    (by by_cases h : 0 < n2 <;> simp [h])

/-- `candGe` is total, as a comparison of real values. -/
theorem candGe_total (x y : ℕ × ℚ × ℚ) : candGe x y || candGe y x := by
  rcases le_total (cval x.2.1 x.2.2) (cval y.2.1 y.2.2) with h | h
  · have : candGe y x = true := by
      rw [candGe, simGe_iff]; exact h
    simp [this]
  · have : candGe x y = true := by
      rw [candGe, simGe_iff]; exact h
    simp [this]

/-- `candGe` is transitive, as a comparison of real values. -/
theorem candGe_trans (x y z : ℕ × ℚ × ℚ) (h1 : candGe x y) (h2 : candGe y z) :
    candGe x z = true := by
  rw [candGe, simGe_iff] at h1 h2 ⊢
  exact le_trans h2 h1

/-! ### Facts about the candidate pass of batch_cosine_impl -/

theorem compute_sim_eq_ite (q : List ℚ) (i : ℕ) (d : List ℚ) :
    compute_sim q i d =
      if validDoc q d then some (i, dotQ q d, sumSq d) else none := by
  rw [compute_sim, validDoc]
  by_cases h1 : d.length = q.length <;> by_cases h2 : sumSq d < sqThreshold <;>
    simp [h1, h2]

theorem length_filterMap_enumFrom (q : List ℚ) :
    ∀ (n : ℕ) (docs : List (List ℚ)),
      ((List.enumFrom n docs).filterMap (fun p => compute_sim q p.1 p.2)).length =
        docs.countP (validDoc q)
  | _, [] => by simp
  | n, d :: ds => by
    rw [List.enumFrom_cons, List.filterMap_cons, List.countP_cons]
    have hrec := length_filterMap_enumFrom q (n + 1) ds
    rcases hcs : compute_sim q n d with _ | c
    · have hv : validDoc q d = false := by
        rw [compute_sim_eq_ite] at hcs
        by_cases h : validDoc q d
        · rw [if_pos h] at hcs
          cases hcs
        · simpa using h
      rw [hrec, hv]
      simp
    · have hv : validDoc q d = true := by
        rw [compute_sim_eq_ite] at hcs
        by_cases h : validDoc q d
        · exact h
        · rw [if_neg h] at hcs
          cases hcs
      rw [List.length_cons, hrec, hv]
      simp

theorem length_candidatesOf (q : List ℚ) (docs : List (List ℚ)) :
    (candidatesOf q docs).length = docs.countP (validDoc q) := by
  rw [candidatesOf, List.enum]
  exact length_filterMap_enumFrom q 0 docs

theorem mem_filterMap_enumFrom_le {q : List ℚ} {n : ℕ} {docs : List (List ℚ)}
    {c : ℕ × ℚ × ℚ}
    (hc : c ∈ (List.enumFrom n docs).filterMap (fun p => compute_sim q p.1 p.2)) :
    n ≤ c.1 := by
  obtain ⟨⟨i, d⟩, hp, hcd⟩ := List.mem_filterMap.mp hc
  have hn : n ≤ i := (List.mk_mem_enumFrom_iff_le_and_get?_sub.mp hp).1
  rw [compute_sim_eq_ite] at hcd
  by_cases h : validDoc q d
  · rw [if_pos h] at hcd
    cases hcd
    exact hn
  · rw [if_neg h] at hcd
    cases hcd

theorem pairwise_fst_filterMap_enumFrom (q : List ℚ) :
    ∀ (n : ℕ) (docs : List (List ℚ)),
      ((List.enumFrom n docs).filterMap (fun p => compute_sim q p.1 p.2)).Pairwise
        (fun x y => x.1 < y.1)
  | _, [] => by simp
  | n, d :: ds => by
    rw [List.enumFrom_cons, List.filterMap_cons]
    rcases h : compute_sim q n d with _ | c
    · exact pairwise_fst_filterMap_enumFrom q (n + 1) ds
    · refine List.Pairwise.cons ?_ (pairwise_fst_filterMap_enumFrom q (n + 1) ds)
      intro y hy
      have h1 : n + 1 ≤ y.1 := mem_filterMap_enumFrom_le hy
      have hc1 : c.1 = n := by
        rw [compute_sim_eq_ite] at h
        by_cases hv : validDoc q d
        · rw [if_pos hv] at h
          cases h
          rfl
        · rw [if_neg hv] at h
          cases h
      omega

theorem mem_candidatesOf {q : List ℚ} {docs : List (List ℚ)} {c : ℕ × ℚ × ℚ}
    (hc : c ∈ candidatesOf q docs) :
    ∃ doc, docs.get? c.1 = some doc ∧ validDoc q doc = true ∧
      c.2.1 = dotQ q doc ∧ c.2.2 = sumSq doc := by
  obtain ⟨⟨i, d⟩, hp, hcd⟩ := List.mem_filterMap.mp hc
  have hget : docs.get? i = some d := List.mem_enum_iff_get?.mp hp
  rw [compute_sim_eq_ite] at hcd
  by_cases h : validDoc q d
  · rw [if_pos h] at hcd
    cases hcd
    exact ⟨d, hget, h, rfl, rfl⟩
  · rw [if_neg h] at hcd
    cases hcd

theorem sqThreshold_pos : (0 : ℚ) < sqThreshold := by norm_num [sqThreshold]

theorem validDoc_sumSq_pos {q d : List ℚ} (h : validDoc q d = true) :
    0 < sumSq d := by
  rw [validDoc, Bool.and_eq_true] at h
  have h2 : ¬ sumSq d < sqThreshold := by simpa using h.2
  exact lt_of_lt_of_le sqThreshold_pos (le_of_not_lt h2)

/-- Every member of the batch output comes from a valid document. -/
theorem mem_batch_cosine {query : List ℚ} {docs : List (List ℚ)} {top_k : ℕ}
    {c : ℕ × ℚ × ℚ} (hc : c ∈ batch_cosine_impl query docs top_k) :
    ∃ doc, docs.get? c.1 = some doc ∧ validDoc query doc = true ∧
      c.2.1 = dotQ query doc ∧ c.2.2 = sumSq doc := by
  rw [batch_cosine_impl] at hc
  by_cases hg : query.isEmpty ∨ docs.isEmpty
  · rw [if_pos hg] at hc
    cases hc
  · rw [if_neg hg] at hc
    by_cases hq : sumSq query < sqThreshold
    · rw [if_pos hq] at hc
      cases hc
    · rw [if_neg hq] at hc
      have h1 : c ∈ (candidatesOf query docs).mergeSort candGe :=
        List.mem_of_mem_take hc
      have h2 : c ∈ candidatesOf query docs := List.mem_mergeSort.mp h1
      exact mem_candidatesOf h2

theorem simVal_eq_cval_div (qsq : ℚ) (c : ℕ × ℚ × ℚ) (hn : 0 < c.2.2) :
    simVal qsq c = cval c.2.1 c.2.2 / Real.sqrt ((qsq : ℚ) : ℝ) := by
  rw [simVal, cval, if_pos hn, div_div, mul_comm]

/-- C2, amended: the batch result is empty under the three guard conditions;
otherwise its length is `min top_k (number of valid documents)`, every entry
comes from a valid document, and the entries are sorted descending
(non-strictly: ties keep their relative order) by similarity value. -/
theorem batch_cosine_sorted_spec (query : List ℚ) (docs : List (List ℚ))
    (top_k : ℕ) :
    ((query = [] ∨ docs = [] ∨ sumSq query < sqThreshold) →
        batch_cosine_impl query docs top_k = []) ∧
    (query ≠ [] → docs ≠ [] → ¬ sumSq query < sqThreshold →
        (batch_cosine_impl query docs top_k).length =
          min top_k (docs.countP (validDoc query))) ∧
    (∀ c ∈ batch_cosine_impl query docs top_k,
        ∃ doc, docs.get? c.1 = some doc ∧ validDoc query doc = true) ∧
    (batch_cosine_impl query docs top_k).Pairwise
      (fun x y => simVal (sumSq query) y ≤ simVal (sumSq query) x) := by
  refine ⟨?_, ?_, ?_, ?_⟩
  · rintro (h | h | h)
    · simp [batch_cosine_impl, h]
    · simp [batch_cosine_impl, h]
    · rw [batch_cosine_impl]
      by_cases hg : query.isEmpty ∨ docs.isEmpty
      · rw [if_pos hg]
      · rw [if_neg hg, if_pos h]
  · intro h1 h2 h3
    rw [batch_cosine_impl, if_neg (by simp [List.isEmpty_iff, h1, h2]), if_neg h3]
    rw [List.length_take, List.length_mergeSort, length_candidatesOf]
  · intro c hc
    obtain ⟨doc, hdoc, hv, _, _⟩ := mem_batch_cosine hc
    exact ⟨doc, hdoc, hv⟩
  · rw [batch_cosine_impl]
    by_cases hg : query.isEmpty ∨ docs.isEmpty
    · rw [if_pos hg]
      exact List.Pairwise.nil
    · rw [if_neg hg]
      by_cases hq : sumSq query < sqThreshold
      · rw [if_pos hq]
        exact List.Pairwise.nil
      · rw [if_neg hq]
        have hqs : (0 : ℝ) < Real.sqrt ((sumSq query : ℚ) : ℝ) := by
          apply Real.sqrt_pos.mpr
          exact_mod_cast lt_of_lt_of_le sqThreshold_pos (le_of_not_lt hq)
        have hsorted : ((candidatesOf query docs).mergeSort candGe).Pairwise
            (fun x y => candGe x y = true) :=
          List.sorted_mergeSort candGe_trans candGe_total _
        have htake : (((candidatesOf query docs).mergeSort candGe).take top_k).Pairwise
            (fun x y => candGe x y = true) :=
          hsorted.sublist (List.take_sublist _ _)
        refine htake.imp_of_mem ?_
        intro a b ha hb hab
        have hamem : a ∈ candidatesOf query docs :=
          List.mem_mergeSort.mp (List.mem_of_mem_take ha)
        have hbmem : b ∈ candidatesOf query docs :=
          List.mem_mergeSort.mp (List.mem_of_mem_take hb)
        obtain ⟨da, _, hva, _, ha2⟩ := mem_candidatesOf hamem
        obtain ⟨db, _, hvb, _, hb2⟩ := mem_candidatesOf hbmem
        have hna : 0 < a.2.2 := ha2 ▸ validDoc_sumSq_pos hva
        have hnb : 0 < b.2.2 := hb2 ▸ validDoc_sumSq_pos hvb
        rw [simVal_eq_cval_div _ _ hna, simVal_eq_cval_div _ _ hnb]
        rw [div_le_div_iff_of_pos_right hqs]
        rw [candGe, simGe_iff] at hab
        exact hab

/-- C2, counterexample to strictness: two identical documents produce two
entries with equal similarity, so the output is not sorted *strictly*
descending. -/
theorem batch_cosine_strict_counterexample :
    batch_cosine_impl [1] [[1], [1]] 2 = [(0, 1, 1), (1, 1, 1)] ∧
    simVal (sumSq [1]) (0, 1, 1) = simVal (sumSq [1]) (1, 1, 1) ∧
    ¬ (batch_cosine_impl [1] [[1], [1]] 2).Pairwise
      (fun x y => simVal (sumSq [1]) y < simVal (sumSq [1]) x) := by
  have hcands : candidatesOf [1] [[1], [1]] = [(0, 1, 1), (1, 1, 1)] := by
    norm_num [candidatesOf, List.enum, List.enumFrom, List.filterMap_cons,
      compute_sim, dotQ, sumSq, sqThreshold]
  have heval : batch_cosine_impl [1] [[1], [1]] 2 = [(0, 1, 1), (1, 1, 1)] := by
    rw [batch_cosine_impl, if_neg (by simp), if_neg (by norm_num [sumSq, sqThreshold]),
      hcands]
    norm_num [List.mergeSort, List.merge, candGe, simGe]
  have hval : ∀ i : ℕ, simVal (sumSq [1]) (i, 1, 1) = 1 := by
    intro i
    rw [simVal]
    show ((1 : ℚ) : ℝ) / (Real.sqrt ((sumSq [1] : ℚ) : ℝ) * Real.sqrt ((1 : ℚ) : ℝ)) = 1
    norm_num [sumSq, Real.sqrt_one]
  refine ⟨heval, by rw [hval 0, hval 1], ?_⟩
  intro hpw
  rw [heval] at hpw
  have := (List.pairwise_cons.mp hpw).1 (1, 1, 1) (by simp)
  rw [hval 0, hval 1] at this
  exact lt_irrefl 1 this

/-- C2, witness: the amended theorem applied at a concrete non-guard input. -/
theorem batch_cosine_sorted_spec_witness :
    (batch_cosine_impl [(1 : ℚ)] [[(1 : ℚ)], [], [(2 : ℚ)]] 1).length =
      min 1 ([[(1 : ℚ)], [], [(2 : ℚ)]].countP (validDoc [(1 : ℚ)])) := by
  exact (batch_cosine_sorted_spec [(1 : ℚ)] [[(1 : ℚ)], [], [(2 : ℚ)]] 1).2.1
    (by simp) (by simp) (by norm_num [sumSq, sqThreshold])

/-- C9: processing any chunking of the enumerated document list independently
and concatenating the per-chunk results in order yields exactly the
sequential candidate sequence, hence the whole batch result is the same for
the sequential and the parallel execution strategies. -/
theorem batch_cosine_par_eq_seq (query : List ℚ) (docs : List (List ℚ))
    (top_k : ℕ) (chunks : List (List (ℕ × List ℚ)))
    (h : chunks.flatten = docs.enum) :
    candidatesOfChunks query chunks = candidatesOf query docs ∧
    batch_cosine_par query docs top_k chunks = batch_cosine_impl query docs top_k := by
  have hgen : ∀ l : List (List (ℕ × List ℚ)),
      (l.map (fun c => c.filterMap (fun p => compute_sim query p.1 p.2))).flatten =
        l.flatten.filterMap (fun p => compute_sim query p.1 p.2) := by
    intro l
    induction l with
    | nil => simp
    | cons c cs ih =>
      rw [List.map_cons, List.flatten_cons, List.flatten_cons,
        List.filterMap_append, ih]
  have hcand : candidatesOfChunks query chunks = candidatesOf query docs := by
    rw [candidatesOfChunks, candidatesOf, hgen, h]
  refine ⟨hcand, ?_⟩
  rw [batch_cosine_par, batch_cosine_impl, hcand]

/-- C9, witness: a concrete two-chunk split of a three-document batch. -/
theorem batch_cosine_par_eq_seq_witness :
    batch_cosine_par [(1 : ℚ)] [[(1 : ℚ)], [(2 : ℚ)], [(3 : ℚ)]] 2
        [[(0, [(1 : ℚ)]), (1, [(2 : ℚ)])], [(2, [(3 : ℚ)])]] =
      batch_cosine_impl [(1 : ℚ)] [[(1 : ℚ)], [(2 : ℚ)], [(3 : ℚ)]] 2 :=
  (batch_cosine_par_eq_seq [(1 : ℚ)] [[(1 : ℚ)], [(2 : ℚ)], [(3 : ℚ)]] 2
    [[(0, [(1 : ℚ)]), (1, [(2 : ℚ)])], [(2, [(3 : ℚ)])]]
    (by simp [List.enum, List.enumFrom])).2

/-- C10: every returned pair points at a distinct valid document: the index
is within bounds, the document there has the query's dimension and a
non-negligible norm, the recorded dot product and squared norm are those of
that document, and no index repeats. -/
theorem batch_cosine_indices_valid (query : List ℚ) (docs : List (List ℚ))
    (top_k : ℕ) :
    (∀ c ∈ batch_cosine_impl query docs top_k,
      c.1 < docs.length ∧
      ∃ doc, docs.get? c.1 = some doc ∧ doc.length = query.length ∧
        ¬ sumSq doc < sqThreshold ∧ c.2.1 = dotQ query doc ∧ c.2.2 = sumSq doc) ∧
    ((batch_cosine_impl query docs top_k).map (fun c => c.1)).Nodup := by
  constructor
  · intro c hc
    obtain ⟨doc, hget, hv, hd, hn⟩ := mem_batch_cosine hc
    have hlt : c.1 < docs.length := by
      obtain ⟨h, -⟩ := List.get?_eq_some.mp hget
      exact h
    rw [validDoc, Bool.and_eq_true] at hv
    refine ⟨hlt, doc, hget, by simpa using hv.1, by simpa using hv.2, hd, hn⟩
  · rw [batch_cosine_impl]
    by_cases hg : query.isEmpty ∨ docs.isEmpty
    · rw [if_pos hg]
      simp
    · rw [if_neg hg]
      by_cases hq : sumSq query < sqThreshold
      · rw [if_pos hq]
        simp
      · rw [if_neg hq]
        have hpw : (candidatesOf query docs).Pairwise (fun x y => x.1 < y.1) := by
          rw [candidatesOf, List.enum]
          exact pairwise_fst_filterMap_enumFrom query 0 docs
        have hnd : ((candidatesOf query docs).map (fun c => c.1)).Nodup := by
          show ((candidatesOf query docs).map (fun c => c.1)).Pairwise (fun a b => a ≠ b)
          rw [List.pairwise_map]
          exact hpw.imp (fun h => ne_of_lt h)
        have hperm : List.Perm
            (((candidatesOf query docs).mergeSort candGe).map (fun c => c.1))
            ((candidatesOf query docs).map (fun c => c.1)) :=
          (List.mergeSort_perm _ _).map _
        have hnd2 : (((candidatesOf query docs).mergeSort candGe).map
            (fun c => c.1)).Nodup := hperm.nodup_iff.mpr hnd
        have hsub : ((((candidatesOf query docs).mergeSort candGe).take top_k).map
            (fun c => c.1)).Sublist
            (((candidatesOf query docs).mergeSort candGe).map (fun c => c.1)) :=
          (List.take_sublist _ _).map _
        exact hsub.nodup hnd2

/-! ### Working memory (C7) -/

theorem trimFront_eq_drop {α : Type} (ws : ℕ) (l : List α) :
    trimFront ws l = l.drop (l.length - ws) := by
  induction l with
  | nil =>
    rw [trimFront]
    simp
  | cons a l ih =>
    rw [trimFront]
    by_cases h : (a :: l).length > ws
    · rw [if_pos h, List.tail_cons, ih]
      have h2 : (a :: l).length - ws = (l.length - ws) + 1 := by
        simp only [List.length_cons] at h ⊢
        omega
      rw [h2, List.drop_succ_cons]
    · rw [if_neg h]
      have h2 : (a :: l).length - ws = 0 := by
        simp only [List.length_cons] at h ⊢
        omega
      rw [h2, List.drop_zero]

theorem foldl_add_to_working_eq_drop {α : Type} (ws : ℕ) :
    ∀ (calls acc : List α), acc.length ≤ ws →
      calls.foldl (fun a e => add_to_working ws a e) acc =
        (acc ++ calls).drop ((acc ++ calls).length - ws)
  | [], acc, hacc => by
    simp only [List.foldl_nil, List.append_nil]
    have h0 : acc.length - ws = 0 := by omega
    rw [h0, List.drop_zero]
  | e :: calls, acc, hacc => by
    rw [List.foldl_cons]
    have hstep : add_to_working ws acc e =
        (acc ++ [e]).drop ((acc ++ [e]).length - ws) := by
      rw [add_to_working, trimFront_eq_drop]
    rw [hstep]
    generalize hA : acc ++ [e] = A
    have hAlen : A.length = acc.length + 1 := by rw [← hA]; simp
    have hlen : (A.drop (A.length - ws)).length ≤ ws := by
      simp only [List.length_drop]
      omega
    rw [foldl_add_to_working_eq_drop ws calls _ hlen]
    have h1 : A.drop (A.length - ws) ++ calls = (A ++ calls).drop (A.length - ws) := by
      rw [List.drop_append_eq_append_drop]
      have h2 : A.length - ws - A.length = 0 := by omega
      rw [h2, List.drop_zero]
    rw [h1, List.drop_drop]
    have h3 : A ++ calls = acc ++ e :: calls := by rw [← hA]; simp
    rw [← h3]
    congr 1
    simp only [List.length_drop, List.length_append, hAlen]
    omega

/-- C7: after any sequence of `add_to_working` calls starting from the empty
working memory, the held entries are exactly the last `min working_size n`
appended entries in append order (each call appends, then trims from the
front), so the length never exceeds `working_size` and the newest entry is
last. -/
theorem working_memory_bounded (ws : ℕ) (calls : List WorkingEntry) :
    calls.foldl (fun a e => add_to_working ws a e) [] =
      calls.drop (calls.length - ws) ∧
    (calls.foldl (fun a e => add_to_working ws a e) []).length ≤ ws := by
  have h := foldl_add_to_working_eq_drop ws calls [] (by simp)
  simp only [List.nil_append] at h
  refine ⟨h, ?_⟩
  rw [h, List.length_drop]
  omega

/-! ### Embedding cache: get after put, clear (C8) -/

theorem cacheGet_fst {K : Type} [DecidableEq K] (hash : String → K)
    (s : CacheState K) (text : String) :
    (cacheGet hash s text).1 = (cacheFind s (hash text)).map (fun e => e.vec) := by
  rw [cacheGet]
  rcases h : cacheFind s (hash text) with _ | e <;> simp [h]

theorem cacheFind_put {K : Type} [DecidableEq K] (hash : String → K)
    (maxSize : ℕ) (s : CacheState K) (text : String) (v : List ℚ) :
    cacheFind (cachePut hash maxSize s text v) (hash text) =
      some ⟨hash text, v, 1⟩ := by
  rw [cacheFind, cachePut]
  rw [List.find?_append]
  have h1 : List.find? (fun e => decide (e.key = hash text))
      ((if s.entries.length ≥ maxSize then evict_lru maxSize s else s).entries.filter
        (fun e => decide ¬ e.key = hash text)) = none := by
    rw [List.find?_eq_none]
    intro x hx
    have h2 := (List.mem_filter.mp hx).2
    simp only [decide_not] at h2
    simpa using h2
  rw [h1]
  simp

/-- C8: `get(text)` immediately after `put(text, v)` returns `v` (for every
prior cache state and capacity), and after `clear()` the size is `0` and the
stats triple is `(0, 0, 0)`. -/
theorem cache_put_get_clear {K : Type} [DecidableEq K] (hash : String → K)
    (maxSize : ℕ) (s : CacheState K) (text : String) (v : List ℚ) :
    (cacheGet hash (cachePut hash maxSize s text v) text).1 = some v ∧
    cacheSize (cacheClear s) = 0 ∧
    cacheStats (cacheClear s) = (0, 0, 0) := by
  refine ⟨?_, rfl, rfl⟩
  rw [cacheGet_fst, cacheFind_put]
  rfl

/-! ### Relevance retrieval (C5) -/

/-- C5: every triple returned by `get_relevant_context` comes from a stored
episode with at least one accumulated query-keyword hit, carries score
`hit_count * importance`, timestamp and the first 80 characters of the
episode's `user_input`; the results are sorted descending by score and
truncated to `max_items`. -/
theorem get_relevant_context_spec (tm : TextModel) (hashW : String → ℕ)
    (s : MemState) (query : String) (max_items : ℕ) :
    (∀ r ∈ get_relevant_context tm hashW s query max_items,
      ∃ idx ep, s.episodic.get? idx = some ep ∧
        0 < hitCount tm hashW s.index query idx ∧
        r = (ep.timestamp, takeChars ep.user_input 80,
          (hitCount tm hashW s.index query idx : ℤ) * ep.importance)) ∧
    (get_relevant_context tm hashW s query max_items).length ≤ max_items ∧
    (get_relevant_context tm hashW s query max_items).Pairwise
      (fun a b => b.2.2 ≤ a.2.2) := by
  refine ⟨?_, ?_, ?_⟩
  · intro r hr
    rw [get_relevant_context] at hr
    have hr2 := List.mem_mergeSort.mp (List.mem_of_mem_take hr)
    obtain ⟨idx, hidx, hmap⟩ := List.mem_filterMap.mp hr2
    obtain ⟨ep, hep, hfr⟩ := Option.map_eq_some'.mp hmap
    refine ⟨idx, ep, hep, ?_, hfr.symm⟩
    have hflat := List.mem_dedup.mp hidx
    obtain ⟨l, hl, hml⟩ := List.mem_flatten.mp hflat
    obtain ⟨w, hw, hwl⟩ := List.mem_map.mp hl
    have hcnt : 0 < (s.index (hashW w)).count idx := by
      rw [List.count_pos_iff]
      rw [← hwl] at hml
      exact hml
    have hmemc : (s.index (hashW w)).count idx ∈
        (queryTokens tm query).map (fun w2 => (s.index (hashW w2)).count idx) :=
      List.mem_map.mpr ⟨w, hw, rfl⟩
    have hle := List.single_le_sum (fun x _ => Nat.zero_le x) _ hmemc
    rw [hitCount]
    omega
  · rw [get_relevant_context]
    exact List.length_take_le _ _
  · rw [get_relevant_context]
    have htrans : ∀ a b c : Option ℚ × String × ℤ,
        (fun x y : Option ℚ × String × ℤ => decide (y.2.2 ≤ x.2.2)) a b →
        (fun x y : Option ℚ × String × ℤ => decide (y.2.2 ≤ x.2.2)) b c →
        (fun x y : Option ℚ × String × ℤ => decide (y.2.2 ≤ x.2.2)) a c := by
      intro a b c h1 h2
      simp only [decide_eq_true_eq] at h1 h2 ⊢
      exact le_trans h2 h1
    have htotal : ∀ a b : Option ℚ × String × ℤ,
        (fun x y : Option ℚ × String × ℤ => decide (y.2.2 ≤ x.2.2)) a b ||
        (fun x y : Option ℚ × String × ℤ => decide (y.2.2 ≤ x.2.2)) b a := by
      intro a b
      simp only [Bool.or_eq_true, decide_eq_true_eq]
      exact le_total b.2.2 a.2.2
    have hs := List.sorted_mergeSort htrans htotal
      (((((queryTokens tm query).map (fun w => s.index (hashW w))).flatten).dedup).filterMap
        (fun idx => (s.episodic.get? idx).map (fun ep =>
          (ep.timestamp, takeChars ep.user_input 80,
            (hitCount tm hashW s.index query idx : ℤ) * ep.importance))))
    have htk := hs.sublist (List.take_sublist max_items _)
    exact htk.imp (fun h => of_decide_eq_true h)

/-- C5, witness: a one-episode engine and a single-token query; the returned
triple is the stored episode previewed and scored `1 * 5`. -/
theorem get_relevant_context_spec_witness :
    ∃ idx ep,
      (⟨[⟨none, "hello world", "ok", "joy", 5, []⟩], fun _ => [0]⟩ :
        MemState).episodic.get? idx = some ep ∧
      0 < hitCount ⟨fun s => [s], fun s => s⟩ (fun _ => 0) (fun _ => [0])
        "hello" idx ∧
      ((none : Option ℚ), "hello world", (5 : ℤ)) =
        (ep.timestamp, takeChars ep.user_input 80,
          (hitCount ⟨fun s => [s], fun s => s⟩ (fun _ => 0) (fun _ => [0])
            "hello" idx : ℤ) * ep.importance) := by
  have hqt : queryTokens ⟨fun s => [s], fun s => s⟩ "hello" = ["hello"] := by decide
  have hhc : hitCount ⟨fun s => [s], fun s => s⟩ (fun _ => 0) (fun _ => [0])
      "hello" 0 = 1 := by decide
  have hpre : takeChars "hello world" 80 = "hello world" := by decide
  have hout : get_relevant_context ⟨fun s => [s], fun s => s⟩ (fun _ => 0)
      ⟨[⟨none, "hello world", "ok", "joy", 5, []⟩], fun _ => [0]⟩ "hello" 3 =
      [((none : Option ℚ), "hello world", (5 : ℤ))] := by
    simp only [get_relevant_context, hqt, List.map_cons, List.map_nil]
    simp only [List.flatten, List.append_nil, List.dedup_nil,
      List.dedup_cons_of_not_mem, List.not_mem_nil, not_false_iff]
    simp only [List.filterMap_cons, List.filterMap_nil, List.get?,
      Option.map_some', hhc, hpre]
    simp [List.mergeSort]
  exact (get_relevant_context_spec ⟨fun s => [s], fun s => s⟩ (fun _ => 0)
      ⟨[⟨none, "hello world", "ok", "joy", 5, []⟩], fun _ => [0]⟩ "hello" 3).1
    ((none : Option ℚ), "hello world", (5 : ℤ)) (by rw [hout]; simp)

/-! ### Embedding cache: capacity check and eviction (C6) -/

theorem filter_not_keys_split {K : Type} [DecidableEq K]
    (T D : List (CacheEntry K))
    (hdisj : (T.map (fun e => e.key)).Disjoint (D.map (fun e => e.key))) :
    (T ++ D).filter (fun e => ! (T.map (fun e2 => e2.key)).contains e.key) = D := by
  rw [List.filter_append]
  have ha : T.filter (fun e => ! (T.map (fun e2 => e2.key)).contains e.key) = [] := by
    rw [List.filter_eq_nil_iff]
    intro e he
    simp only [Bool.not_eq_true', Bool.not_eq_false]
    simp only [List.contains, List.elem_eq_mem, decide_eq_true_eq]
    exact List.mem_map.mpr ⟨e, he, rfl⟩
  have hb : D.filter (fun e => ! (T.map (fun e2 => e2.key)).contains e.key) = D := by
    rw [List.filter_eq_self]
    intro e he
    simp only [Bool.not_eq_true', Bool.not_eq_false]
    simp only [List.contains, List.elem_eq_mem, decide_eq_false_iff_not]
    intro hmem
    exact hdisj hmem (List.mem_map.mpr ⟨e, he, rfl⟩)
  rw [ha, hb, List.nil_append]

theorem filter_not_take_keys_eq_drop {K : Type} [DecidableEq K]
    (l : List (CacheEntry K)) (rc : ℕ)
    (hknd : (l.map (fun e => e.key)).Nodup) :
    l.filter (fun e => ! ((l.take rc).map (fun e2 => e2.key)).contains e.key) =
      l.drop rc := by
  have hsplit := List.take_append_drop rc l
  have hknd2 : ((l.take rc ++ l.drop rc).map (fun e => e.key)).Nodup := by
    rw [hsplit]
    exact hknd
  rw [List.map_append, List.nodup_append] at hknd2
  obtain ⟨-, -, hdisj⟩ := hknd2
  have hmain := filter_not_keys_split (l.take rc) (l.drop rc) hdisj
  rw [hsplit] at hmain
  exact hmain

theorem cntLe_trans {K : Type} : ∀ a b c : CacheEntry K,
    (fun x y : CacheEntry K => decide (x.count ≤ y.count)) a b →
    (fun x y : CacheEntry K => decide (x.count ≤ y.count)) b c →
    (fun x y : CacheEntry K => decide (x.count ≤ y.count)) a c := by
  intro a b c h1 h2
  simp only [decide_eq_true_eq] at h1 h2 ⊢
  exact le_trans h1 h2

theorem cntLe_total {K : Type} : ∀ a b : CacheEntry K,
    (fun x y : CacheEntry K => decide (x.count ≤ y.count)) a b ||
    (fun x y : CacheEntry K => decide (x.count ≤ y.count)) b a := by
  intro a b
  simp only [Bool.or_eq_true, decide_eq_true_eq]
  exact le_total a.count b.count

theorem evict_lru_entries_perm {K : Type} [DecidableEq K] (cap : ℕ)
    (s : CacheState K) (hnd : (s.entries.map (fun e => e.key)).Nodup) :
    List.Perm (evict_lru cap s).entries
      ((s.entries.mergeSort (fun a b => decide (a.count ≤ b.count))).drop
        (max 1 (cap / 10))) := by
  have hperm : List.Perm
      (s.entries.mergeSort (fun a b => decide (a.count ≤ b.count))) s.entries :=
    List.mergeSort_perm _ _
  have hknd : ((s.entries.mergeSort
      (fun a b => decide (a.count ≤ b.count))).map (fun e => e.key)).Nodup :=
    ((hperm.map _).nodup_iff).mpr hnd
  have hfp := hperm.symm.filter
    (fun e => ! (((s.entries.mergeSort (fun a b => decide (a.count ≤ b.count))).take
      (max 1 (cap / 10))).map (fun e2 => e2.key)).contains e.key)
  rw [filter_not_take_keys_eq_drop _ _ hknd] at hfp
  exact hfp

theorem evict_lru_spec {K : Type} [DecidableEq K] (cap : ℕ) (s : CacheState K)
    (hnd : (s.entries.map (fun e => e.key)).Nodup) :
    (evict_lru cap s).entries.length = s.entries.length - max 1 (cap / 10) ∧
    ∀ r ∈ s.entries, r ∉ (evict_lru cap s).entries →
      ∀ e ∈ (evict_lru cap s).entries, r.count ≤ e.count := by
  have hperm : List.Perm
      (s.entries.mergeSort (fun a b => decide (a.count ≤ b.count))) s.entries :=
    List.mergeSort_perm _ _
  have hevp := evict_lru_entries_perm cap s hnd
  constructor
  · rw [hevp.length_eq, List.length_drop, List.length_mergeSort]
  · intro r hr hnr e he
    have hrs : r ∈ s.entries.mergeSort (fun a b => decide (a.count ≤ b.count)) :=
      hperm.mem_iff.mpr hr
    have hrd : r ∉ (s.entries.mergeSort
        (fun a b => decide (a.count ≤ b.count))).drop (max 1 (cap / 10)) :=
      fun hmem => hnr (hevp.mem_iff.mpr hmem)
    have hed : e ∈ (s.entries.mergeSort
        (fun a b => decide (a.count ≤ b.count))).drop (max 1 (cap / 10)) :=
      hevp.mem_iff.mp he
    have hrt : r ∈ (s.entries.mergeSort
        (fun a b => decide (a.count ≤ b.count))).take (max 1 (cap / 10)) := by
      rw [← List.take_append_drop (max 1 (cap / 10))
        (s.entries.mergeSort (fun a b => decide (a.count ≤ b.count)))] at hrs
      rcases List.mem_append.mp hrs with h | h
      · exact h
      · exact absurd h hrd
    have hpw : (s.entries.mergeSort
        (fun a b => decide (a.count ≤ b.count))).Pairwise
        (fun a b => (fun x y : CacheEntry K => decide (x.count ≤ y.count)) a b) :=
      List.sorted_mergeSort cntLe_trans cntLe_total _
    rw [← List.take_append_drop (max 1 (cap / 10))
      (s.entries.mergeSort (fun a b => decide (a.count ≤ b.count)))] at hpw
    have hcross := (List.pairwise_append.mp hpw).2.2 r hrt e hed
    exact of_decide_eq_true hcross

/-- C6, amended: for a capacity of at least 1, `put` on a cache at or above
capacity first evicts the `max 1 (capacity/10)` entries with the lowest
access counts (removed entries never beat survivors on access count, and for
capacity above 10 the eviction cannot empty the cache), then inserts the new
entry with its access counter set to 1; consequently one more `put` of a
not-yet-cached text on a cache holding exactly `capacity` entries leaves the
size at most `capacity` with at least one prior entry removed. -/
theorem cache_put_capacity_spec {K : Type} [DecidableEq K] (hash : String → K)
    (cap : ℕ) (s : CacheState K) (text : String) (v : List ℚ)
    (hnd : (s.entries.map (fun e => e.key)).Nodup) (hcap : 1 ≤ cap) :
    ((evict_lru cap s).entries.length = s.entries.length - max 1 (cap / 10) ∧
      (∀ r ∈ s.entries, r ∉ (evict_lru cap s).entries →
        ∀ e ∈ (evict_lru cap s).entries, r.count ≤ e.count) ∧
      (10 < cap → s.entries.length ≥ cap → (evict_lru cap s).entries ≠ [])) ∧
    cacheFind (cachePut hash cap s text v) (hash text) = some ⟨hash text, v, 1⟩ ∧
    (s.entries.length = cap → hash text ∉ s.entries.map (fun e => e.key) →
      cacheSize (cachePut hash cap s text v) ≤ cap ∧
      ∃ r ∈ s.entries, r ∉ (cachePut hash cap s text v).entries) := by
  obtain ⟨hlen, hsel⟩ := evict_lru_spec cap s hnd
  refine ⟨⟨hlen, hsel, ?_⟩, cacheFind_put hash cap s text v, ?_⟩
  · intro h10 hsz
    have hrc : max 1 (cap / 10) = cap / 10 := by omega
    have hpos : 0 < (evict_lru cap s).entries.length := by
      rw [hlen, hrc]
      have : cap / 10 < cap := Nat.div_lt_self (by omega) (by omega)
      omega
    exact List.length_pos.mp hpos
  · intro hfull hfresh
    have hge : s.entries.length ≥ cap := le_of_eq hfull.symm
    have hput : (cachePut hash cap s text v).entries =
        (evict_lru cap s).entries.filter (fun e => e.key ≠ hash text) ++
          [⟨hash text, v, 1⟩] := by
      rw [cachePut]
      simp only [ge_iff_le, hge, if_pos]
    constructor
    · rw [cacheSize, hput, List.length_append]
      have h1 : ((evict_lru cap s).entries.filter
          (fun e => e.key ≠ hash text)).length ≤ (evict_lru cap s).entries.length :=
        List.length_filter_le _ _
      have h2 : (evict_lru cap s).entries.length ≤ cap - 1 := by
        rw [hlen, hfull]
        omega
      simp only [List.length_singleton]
      omega
    · -- some victim was removed: the sorted list is nonempty, its first
      -- `max 1 (cap/10)` entries are all evicted, and none can reappear as
      -- the freshly inserted entry because the inserted key is not cached
      have hperm : List.Perm
          (s.entries.mergeSort (fun a b => decide (a.count ≤ b.count))) s.entries :=
        List.mergeSort_perm _ _
      have hslen : (s.entries.mergeSort
          (fun a b => decide (a.count ≤ b.count))).length = cap := by
        rw [List.length_mergeSort, hfull]
      have htne : (s.entries.mergeSort
          (fun a b => decide (a.count ≤ b.count))).take (max 1 (cap / 10)) ≠ [] := by
        intro hnil
        have := congrArg List.length hnil
        rw [List.length_take, hslen] at this
        simp at this
        omega
      obtain ⟨r, hrt⟩ := List.exists_mem_of_ne_nil _ htne
      have hrs : r ∈ s.entries :=
        hperm.mem_iff.mp (List.mem_of_mem_take hrt)
      refine ⟨r, hrs, ?_⟩
      intro hrin
      rw [hput] at hrin
      rcases List.mem_append.mp hrin with hr1 | hr2
      · -- r survives eviction: but its key is among the victims
        have hrev : r ∈ (evict_lru cap s).entries := List.mem_of_mem_filter hr1
        have hevp := evict_lru_entries_perm cap s hnd
        have hrd := hevp.mem_iff.mp hrev
        have hknd : ((s.entries.mergeSort
            (fun a b => decide (a.count ≤ b.count))).map (fun e => e.key)).Nodup :=
          ((hperm.map _).nodup_iff).mpr hnd
        have hsplit := List.take_append_drop (max 1 (cap / 10))
          (s.entries.mergeSort (fun a b => decide (a.count ≤ b.count)))
        have hknd2 : (((s.entries.mergeSort
            (fun a b => decide (a.count ≤ b.count))).take (max 1 (cap / 10)) ++
            (s.entries.mergeSort
              (fun a b => decide (a.count ≤ b.count))).drop (max 1 (cap / 10))).map
            (fun e => e.key)).Nodup := by
          rw [hsplit]
          exact hknd
        rw [List.map_append, List.nodup_append] at hknd2
        obtain ⟨-, -, hdisj⟩ := hknd2
        exact hdisj (List.mem_map.mpr ⟨r, hrt, rfl⟩) (List.mem_map.mpr ⟨r, hrd, rfl⟩)
      · -- r cannot be the freshly inserted entry: its key is cached, the
        -- inserted key is not
        have hre : r = ⟨hash text, v, 1⟩ := by simpa using hr2
        have hk : r.key = hash text := by rw [hre]
        apply hfresh
        rw [← hk]
        exact List.mem_map.mpr ⟨r, hrs, rfl⟩

/-- C6, counterexample to the claim as stated: with capacity 0, a `put` on a
cache holding exactly `capacity = 0` entries leaves the size at 1, which
exceeds the capacity, and removes nothing (there is nothing to evict). -/
theorem cache_put_zero_capacity_counterexample :
    cacheSize (cachePut (fun _ => (0 : ℕ)) 0 ⟨[], 0, 0⟩ "a" [1]) = 1 ∧
    ¬ cacheSize (cachePut (fun _ => (0 : ℕ)) 0 ⟨[], 0, 0⟩ "a" [1]) ≤ 0 := by
  have h : (cachePut (fun _ => (0 : ℕ)) 0 ⟨[], 0, 0⟩ "a" [1]).entries =
      [⟨0, [1], 1⟩] := by
    rw [cachePut]
    simp [evict_lru, List.mergeSort]
  rw [cacheSize, h]
  simp

/-- C6, witness: capacity 1, one cached entry, a put of a fresh key evicts
the old entry and stays within capacity. -/
theorem cache_put_capacity_spec_witness :
    cacheSize (cachePut (fun _ => (1 : ℕ)) 1
        ⟨[⟨0, [2], 3⟩], 0, 0⟩ "x" [5]) ≤ 1 ∧
    ∃ r ∈ ({ entries := [⟨0, [2], 3⟩], hits := 0, misses := 0 } :
        CacheState ℕ).entries,
      r ∉ (cachePut (fun _ => (1 : ℕ)) 1 ⟨[⟨0, [2], 3⟩], 0, 0⟩ "x" [5]).entries :=
  (cache_put_capacity_spec (fun _ => (1 : ℕ)) 1 ⟨[⟨0, [2], 3⟩], 0, 0⟩ "x" [5]
    (by decide) (by decide)).2.2 (by decide) (by decide)

/-! ### Keyword index invariants (C4) -/

theorem mem_foldl_index_words (tm : TextModel) (hashW : String → ℕ) (idx : ℕ) :
    ∀ (ws : List String) (ki : ℕ → List ℕ) (h i : ℕ),
      (i ∈ (ws.foldl (fun m w =>
          if (tm.lower w).length > 2 then indexWord m (hashW (tm.lower w)) idx
          else m) ki) h ↔
        i ∈ ki h ∨ (i = idx ∧ ∃ w ∈ ws, (tm.lower w).length > 2 ∧
          hashW (tm.lower w) = h))
  | [], ki, h, i => by simp
  | w :: ws, ki, h, i => by
    rw [List.foldl_cons]
    by_cases hw : (tm.lower w).length > 2
    · rw [if_pos hw, mem_foldl_index_words tm hashW idx ws _ h i]
      constructor
      · rintro (hki | ⟨hi, w2, hw2, hlen2, hh2⟩)
        · rw [indexWord] at hki
          by_cases hh : h = hashW (tm.lower w)
          · rw [if_pos hh] at hki
            rcases List.mem_append.mp hki with h1 | h2
            · exact Or.inl h1
            · exact Or.inr ⟨by simpa using h2, w, List.mem_cons_self _ _, hw, hh.symm⟩
          · rw [if_neg hh] at hki
            exact Or.inl hki
        · exact Or.inr ⟨hi, w2, List.mem_cons_of_mem _ hw2, hlen2, hh2⟩
      · rintro (hki | ⟨hi, w2, hw2, hlen2, hh2⟩)
        · left
          rw [indexWord]
          by_cases hh : h = hashW (tm.lower w)
          · rw [if_pos hh]
            exact List.mem_append_left _ hki
          · rw [if_neg hh]
            exact hki
        · rcases List.mem_cons.mp hw2 with rfl | hw2'
          · left
            rw [indexWord, if_pos hh2.symm]
            subst hi
            exact List.mem_append_right _ (List.mem_singleton.mpr rfl)
          · exact Or.inr ⟨hi, w2, hw2', hlen2, hh2⟩
    · rw [if_neg hw, mem_foldl_index_words tm hashW idx ws _ h i]
      constructor
      · rintro (hki | ⟨hi, w2, hw2, hlen2, hh2⟩)
        · exact Or.inl hki
        · exact Or.inr ⟨hi, w2, List.mem_cons_of_mem _ hw2, hlen2, hh2⟩
      · rintro (hki | ⟨hi, w2, hw2, hlen2, hh2⟩)
        · exact Or.inl hki
        · rcases List.mem_cons.mp hw2 with rfl | hw2'
          · exact absurd hlen2 hw
          · exact Or.inr ⟨hi, w2, hw2', hlen2, hh2⟩

theorem mem_index_text (tm : TextModel) (hashW : String → ℕ)
    (ki : ℕ → List ℕ) (idx : ℕ) (text : String) (h i : ℕ) :
    i ∈ (index_text tm hashW ki idx text) h ↔
      i ∈ ki h ∨ (i = idx ∧ ∃ w ∈ tm.words text, (tm.lower w).length > 2 ∧
        hashW (tm.lower w) = h) := by
  rw [index_text]
  exact mem_foldl_index_words tm hashW idx (tm.words text) ki h i

theorem mem_foldl_index_episodes (tm : TextModel) (hashW : String → ℕ) :
    ∀ (l : List (ℕ × Episode)) (m : ℕ → List ℕ) (h i : ℕ),
      (i ∈ (l.foldl (fun m2 p => index_text tm hashW m2 p.1 (combinedText p.2)) m) h ↔
        i ∈ m h ∨ ∃ p ∈ l, p.1 = i ∧ ∃ w ∈ tm.words (combinedText p.2),
          (tm.lower w).length > 2 ∧ hashW (tm.lower w) = h)
  | [], m, h, i => by simp
  | p :: l, m, h, i => by
    rw [List.foldl_cons, mem_foldl_index_episodes tm hashW l _ h i,
      mem_index_text]
    constructor
    · rintro ((hm | ⟨hi, w, hw, hlen, hh⟩) | ⟨q, hq, hqi, w, hw, hlen, hh⟩)
      · exact Or.inl hm
      · exact Or.inr ⟨p, List.mem_cons_self _ _, hi.symm, w, hw, hlen, hh⟩
      · exact Or.inr ⟨q, List.mem_cons_of_mem _ hq, hqi, w, hw, hlen, hh⟩
    · rintro (hm | ⟨q, hq, hqi, w, hw, hlen, hh⟩)
      · exact Or.inl (Or.inl hm)
      · rcases List.mem_cons.mp hq with rfl | hq'
        · exact Or.inl (Or.inr ⟨hqi.symm, w, hw, hlen, hh⟩)
        · exact Or.inr ⟨q, hq', hqi, w, hw, hlen, hh⟩

theorem mem_rebuild_index (tm : TextModel) (hashW : String → ℕ)
    (eps : List Episode) (h i : ℕ) :
    i ∈ (rebuild_index tm hashW eps) h ↔
      ∃ ep, eps.get? i = some ep ∧ ∃ w ∈ tm.words (combinedText ep),
        (tm.lower w).length > 2 ∧ hashW (tm.lower w) = h := by
  rw [rebuild_index, mem_foldl_index_episodes tm hashW eps.enum _ h i]
  simp only [List.not_mem_nil, false_or]
  constructor
  · rintro ⟨p, hp, hpi, w, hw, hlen, hh⟩
    have hget : eps.get? p.1 = some p.2 := List.mem_enum_iff_get?.mp hp
    subst hpi
    exact ⟨p.2, hget, w, hw, hlen, hh⟩
  · rintro ⟨ep, hget, w, hw, hlen, hh⟩
    exact ⟨(i, ep), List.mem_enum_iff_get?.mpr hget, rfl, w, hw, hlen, hh⟩

theorem rebuild_index_valid_complete (tm : TextModel) (hashW : String → ℕ)
    (eps : List Episode) :
    IndexValid ⟨eps, rebuild_index tm hashW eps⟩ ∧
    IndexComplete tm hashW ⟨eps, rebuild_index tm hashW eps⟩ := by
  constructor
  · intro h i hi
    obtain ⟨ep, hget, -⟩ := (mem_rebuild_index tm hashW eps h i).mp hi
    obtain ⟨hlt, -⟩ := List.get?_eq_some.mp hget
    exact hlt
  · intro i ep hget w hw hlen
    exact (mem_rebuild_index tm hashW eps _ i).mpr ⟨ep, hget, w, hw, hlen, rfl⟩

theorem evictState_valid_complete (tm : TextModel) (hashW : String → ℕ)
    (maxE : ℕ) (now : ℚ) (s : MemState) :
    IndexValid (evictState tm hashW maxE now s) ∧
    IndexComplete tm hashW (evictState tm hashW maxE now s) :=
  rebuild_index_valid_complete tm hashW (evict_episodes maxE now s.episodic)

/-- Unfolding equation for `add_episode`. -/
theorem add_episode_eq (tm : TextModel) (hashW : String → ℕ) (maxE : ℕ)
    (now : ℚ) (ts : Option ℚ) (ui resp emo : String) (imp : ℤ) (s : MemState) :
    add_episode tm hashW maxE now ts ui resp emo imp s =
      if (s.episodic ++
          [(⟨ts, ui, resp, emo, imp, extract_keywords tm ui⟩ : Episode)]).length > maxE
      then evictState tm hashW maxE now
        ⟨s.episodic ++ [(⟨ts, ui, resp, emo, imp, extract_keywords tm ui⟩ : Episode)],
          index_text tm hashW s.index s.episodic.length (ui ++ " " ++ resp)⟩
      else ⟨s.episodic ++ [(⟨ts, ui, resp, emo, imp, extract_keywords tm ui⟩ : Episode)],
          index_text tm hashW s.index s.episodic.length (ui ++ " " ++ resp)⟩ := rfl

/-- C4: in every state reachable by any sequence of `add_episode`, eviction
and load operations, every episode position stored in the keyword index is a
valid index into the episodic vector; and after an eviction the index is
additionally complete: it maps every indexable word of every surviving
episode's combined text to that episode's current position, because the
index is rebuilt wholesale from the survivors. -/
theorem keyword_index_invariant (tm : TextModel) (hashW : String → ℕ)
    (maxE : ℕ) (s : MemState) (hs : Reachable tm hashW maxE s) :
    IndexValid s ∧
    ∀ now, IndexValid (evictState tm hashW maxE now s) ∧
      IndexComplete tm hashW (evictState tm hashW maxE now s) := by
  refine ⟨?_, fun now => evictState_valid_complete tm hashW maxE now s⟩
  induction hs with
  | init =>
    intro h i hi
    simp at hi
  | add s now ts user_input response emotion importance hs ih =>
    rw [add_episode_eq]
    by_cases hev : ((s.episodic ++ [(⟨ts, user_input, response, emotion, importance,
        extract_keywords tm user_input⟩ : Episode)]).length > maxE)
    · rw [if_pos hev]
      exact (evictState_valid_complete tm hashW maxE now _).1
    · rw [if_neg hev]
      intro h i hi
      rcases (mem_index_text tm hashW s.index s.episodic.length
        (user_input ++ " " ++ response) h i).mp hi with hold | ⟨hilen, -⟩
      · have := ih h i hold
        simp only [List.length_append, List.length_singleton]
        omega
      · simp only [List.length_append, List.length_singleton]
        omega
  | evict s now hs ih =>
    exact (evictState_valid_complete tm hashW maxE now s).1
  | load s eps hs ih =>
    exact (rebuild_index_valid_complete tm hashW eps).1

/-- C4, witness: the invariant applied to the freshly constructed engine. -/
theorem keyword_index_invariant_witness :
    IndexValid ⟨[], fun _ => []⟩ ∧
    ∀ now, IndexValid (evictState ⟨fun s => [s], fun s => s⟩ (fun _ => 0) 10 now
        ⟨[], fun _ => []⟩) ∧
      IndexComplete ⟨fun s => [s], fun s => s⟩ (fun _ => 0)
        (evictState ⟨fun s => [s], fun s => s⟩ (fun _ => 0) 10 now
          ⟨[], fun _ => []⟩) :=
  keyword_index_invariant ⟨fun s => [s], fun s => s⟩ (fun _ => 0) 10
    ⟨[], fun _ => []⟩ Reachable.init

/-! ### Eviction by descending-index removal (C3) -/

theorem enumFrom_append_eq {α : Type} :
    ∀ (n : ℕ) (xs ys : List α),
      (xs ++ ys).enumFrom n = xs.enumFrom n ++ ys.enumFrom (n + xs.length)
  | _, [], ys => by simp
  | n, x :: xs, ys => by
    rw [List.cons_append, List.enumFrom_cons, List.enumFrom_cons,
      enumFrom_append_eq (n + 1) xs ys, List.cons_append]
    have h : n + 1 + xs.length = n + (x :: xs).length := by
      simp only [List.length_cons]
      omega
    rw [h]

theorem fst_le_of_mem_enumFrom {α : Type} {p : ℕ × α} {n : ℕ} {l : List α}
    (hp : p ∈ l.enumFrom n) : n ≤ p.1 := by
  obtain ⟨a, b⟩ := p
  exact (List.mk_mem_enumFrom_iff_le_and_get?_sub.mp hp).1

theorem fst_lt_of_mem_enum {α : Type} {p : ℕ × α} {l : List α}
    (hp : p ∈ l.enum) : p.1 < l.length := by
  have := List.mem_enum_iff_get?.mp hp
  obtain ⟨h, -⟩ := List.get?_eq_some.mp this
  exact h

/-- Removing a strictly descending list of valid positions with repeated
`eraseIdx` (the source's reverse-order removal loop) keeps exactly the
entries at the other positions, in order. -/
theorem foldl_eraseIdx_desc {α : Type} :
    ∀ (idxs : List ℕ) (l : List α),
      idxs.Pairwise (fun a b => b < a) →
      (∀ j ∈ idxs, j < l.length) →
      idxs.foldl (fun acc j => if j < acc.length then acc.eraseIdx j else acc) l =
        (l.enum.filter (fun p => decide (p.1 ∉ idxs))).map (fun p => p.2)
  | [], l, _, _ => by
    simp only [List.foldl_nil]
    have hf : l.enum.filter (fun p => decide (p.1 ∉ ([] : List ℕ))) = l.enum := by
      rw [List.filter_eq_self]
      intro p _
      simp
    rw [hf]
    exact (List.enumFrom_map_snd 0 l).symm
  | j :: idxs, l, hpw, hval => by
    rw [List.foldl_cons]
    have hjlen : j < l.length := hval j (List.mem_cons_self _ _)
    rw [if_pos hjlen]
    have hhead : ∀ b ∈ idxs, b < j := (List.pairwise_cons.mp hpw).1
    have hpw' : idxs.Pairwise (fun a b => b < a) := (List.pairwise_cons.mp hpw).2
    have hval' : ∀ k ∈ idxs, k < (l.eraseIdx j).length := by
      intro k hk
      rw [List.length_eraseIdx_of_lt hjlen]
      have := hhead k hk
      omega
    rw [foldl_eraseIdx_desc idxs (l.eraseIdx j) hpw' hval']
    have htl : (l.take j).length = j := by
      rw [List.length_take]
      omega
    have h1 : (l.take j ++ l.drop (j + 1)).enum =
        (l.take j).enum ++ (l.drop (j + 1)).enumFrom j := by
      have := enumFrom_append_eq 0 (l.take j) (l.drop (j + 1))
      rw [htl, Nat.zero_add] at this
      exact this
    have h2 : l.enum = (l.take j).enum ++ (l.drop j).enumFrom j := by
      have := enumFrom_append_eq 0 (l.take j) (l.drop j)
      rw [htl, Nat.zero_add] at this
      calc l.enum = (l.take j ++ l.drop j).enum := by rw [List.take_append_drop]
        _ = (l.take j).enum ++ (l.drop j).enumFrom j := this
    have h3 : (l.drop j).enumFrom j =
        (j, l.get ⟨j, hjlen⟩) :: (l.drop (j + 1)).enumFrom (j + 1) := by
      rw [List.drop_eq_get_cons hjlen, List.enumFrom_cons]
    -- the kept part beyond position j survives both filters untouched
    have hkeep1 : ((l.drop (j + 1)).enumFrom j).filter
        (fun p => decide (p.1 ∉ idxs)) = (l.drop (j + 1)).enumFrom j := by
      rw [List.filter_eq_self]
      intro p hp
      have hge := fst_le_of_mem_enumFrom hp
      simp only [decide_eq_true_eq]
      intro hmem
      have := hhead _ hmem
      omega
    have hkeep2 : ((l.drop (j + 1)).enumFrom (j + 1)).filter
        (fun p => decide (p.1 ∉ j :: idxs)) = (l.drop (j + 1)).enumFrom (j + 1) := by
      rw [List.filter_eq_self]
      intro p hp
      have hge := fst_le_of_mem_enumFrom hp
      simp only [decide_eq_true_eq, List.mem_cons, not_or]
      constructor
      · omega
      · intro hmem
        have := hhead _ hmem
        omega
    -- the prefix filters agree: positions below j never equal j
    have hpre : ((l.take j).enum).filter (fun p => decide (p.1 ∉ j :: idxs)) =
        ((l.take j).enum).filter (fun p => decide (p.1 ∉ idxs)) := by
      apply List.filter_congr
      intro p hp
      have hplt : p.1 < j := by
        have := fst_lt_of_mem_enum hp
        rw [htl] at this
        exact this
      apply decide_eq_decide.mpr
      simp only [List.mem_cons, not_or]
      constructor
      · rintro ⟨-, h⟩
        exact h
      · intro h
        exact ⟨by omega, h⟩
    rw [List.eraseIdx_eq_take_drop_succ, h1, h2, h3, List.filter_append,
      List.filter_append, List.filter_cons]
    have hjmem : (decide (((j, l.get ⟨j, hjlen⟩) : ℕ × α).1 ∉ j :: idxs)) = false := by
      simp
    rw [hjmem]
    simp only [Bool.false_eq_true, if_neg, not_false_iff]
    rw [hkeep1, hkeep2, hpre, List.map_append, List.map_append]
    congr 1
    rw [List.enumFrom_map_snd, List.enumFrom_map_snd]

theorem foldl_eraseIdx_length {α : Type} :
    ∀ (idxs : List ℕ) (l : List α),
      idxs.Pairwise (fun a b => b < a) →
      (∀ j ∈ idxs, j < l.length) →
      (idxs.foldl (fun acc j => if j < acc.length then acc.eraseIdx j else acc)
        l).length = l.length - idxs.length
  | [], l, _, _ => by simp
  | j :: idxs, l, hpw, hval => by
    rw [List.foldl_cons]
    have hjlen : j < l.length := hval j (List.mem_cons_self _ _)
    rw [if_pos hjlen]
    have hhead : ∀ b ∈ idxs, b < j := (List.pairwise_cons.mp hpw).1
    have hval' : ∀ k ∈ idxs, k < (l.eraseIdx j).length := by
      intro k hk
      rw [List.length_eraseIdx_of_lt hjlen]
      have := hhead k hk
      omega
    rw [foldl_eraseIdx_length idxs (l.eraseIdx j) (List.pairwise_cons.mp hpw).2 hval',
      List.length_eraseIdx_of_lt hjlen, List.length_cons]
    omega

theorem scoreAsc_trans : ∀ a b c : ℕ × ℚ,
    (fun x y : ℕ × ℚ => decide (x.2 ≤ y.2)) a b →
    (fun x y : ℕ × ℚ => decide (x.2 ≤ y.2)) b c →
    (fun x y : ℕ × ℚ => decide (x.2 ≤ y.2)) a c := by
  intro a b c h1 h2
  simp only [decide_eq_true_eq] at h1 h2 ⊢
  exact le_trans h1 h2

theorem scoreAsc_total : ∀ a b : ℕ × ℚ,
    (fun x y : ℕ × ℚ => decide (x.2 ≤ y.2)) a b ||
    (fun x y : ℕ × ℚ => decide (x.2 ≤ y.2)) b a := by
  intro a b
  simp only [Bool.or_eq_true, decide_eq_true_eq]
  exact le_total a.2 b.2

theorem natDesc_trans : ∀ a b c : ℕ,
    (fun x y : ℕ => decide (y ≤ x)) a b →
    (fun x y : ℕ => decide (y ≤ x)) b c →
    (fun x y : ℕ => decide (y ≤ x)) a c := by
  intro a b c h1 h2
  simp only [decide_eq_true_eq] at h1 h2 ⊢
  omega

theorem natDesc_total : ∀ a b : ℕ,
    (fun x y : ℕ => decide (y ≤ x)) a b ||
    (fun x y : ℕ => decide (y ≤ x)) b a := by
  intro a b
  simp only [Bool.or_eq_true, decide_eq_true_eq]
  omega

theorem enum_fst_inj {α : Type} {p q : ℕ × α} {l : List α}
    (hp : p ∈ l.enum) (hq : q ∈ l.enum) (h : p.1 = q.1) : p = q := by
  obtain ⟨a, b⟩ := p
  obtain ⟨c, d⟩ := q
  simp only at h
  subst h
  have h1 := List.mem_enum_iff_get?.mp hp
  have h2 := List.mem_enum_iff_get?.mp hq
  simp only at h1 h2
  rw [h1] at h2
  cases h2
  rfl

/-- Characterization of `evict_episodes`: it removes exactly the
`max 1 (maxE / 10)` positions with the lowest value-density scores (under
ties, earliest positions, by sort stability), keeping the other episodes in
order. -/
theorem evict_episodes_spec (maxE : ℕ) (now : ℚ) (eps : List Episode)
    (hrc : max 1 (maxE / 10) ≤ eps.length) :
    ∃ removed : List ℕ,
      removed.length = max 1 (maxE / 10) ∧
      removed.Nodup ∧
      (∀ j ∈ removed, j < eps.length) ∧
      evict_episodes maxE now eps =
        (eps.enum.filter (fun p => decide (p.1 ∉ removed))).map (fun p => p.2) ∧
      (evict_episodes maxE now eps).length = eps.length - max 1 (maxE / 10) ∧
      (∀ p ∈ eps.enum, p.1 ∈ removed → ∀ q ∈ eps.enum, q.1 ∉ removed →
        evictionScore now p.2 ≤ evictionScore now q.2) := by
  have hperm : List.Perm
      ((eps.enum.map (fun p => (p.1, evictionScore now p.2))).mergeSort
        (fun a b => decide (a.2 ≤ b.2)))
      (eps.enum.map (fun p => (p.1, evictionScore now p.2))) :=
    List.mergeSort_perm _ _
  have hfsts : (eps.enum.map (fun p => (p.1, evictionScore now p.2))).map
      (fun p => p.1) = eps.enum.map (fun p => p.1) := by
    rw [List.map_map]
    rfl
  have hfstnd : ((eps.enum.map (fun p => (p.1, evictionScore now p.2))).map
      (fun p => p.1)).Nodup := by
    rw [hfsts]
    have h0 : eps.enum.map (fun p => p.1) = List.range' 0 eps.length :=
      List.enumFrom_map_fst 0 eps
    rw [h0]
    exact List.nodup_range' 0 eps.length

  set scored := eps.enum.map (fun p => (p.1, evictionScore now p.2)) with hscored
  set sorted := scored.mergeSort (fun a b => decide (a.2 ≤ b.2)) with hsorted
  set T := sorted.take (max 1 (maxE / 10)) with hT
  set toRemove := (T.map (fun p => p.1)).mergeSort (fun a b => decide (b ≤ a))
    with hTR
  have hsortpw : sorted.Pairwise
      (fun a b => (fun x y : ℕ × ℚ => decide (x.2 ≤ y.2)) a b = true) :=
    List.sorted_mergeSort scoreAsc_trans scoreAsc_total _
  have hsorted_fst_nd : (sorted.map (fun p => p.1)).Nodup :=
    ((hperm.map _).nodup_iff).mpr hfstnd
  have hTnd : (T.map (fun p => p.1)).Nodup :=
    ((List.take_sublist _ _).map _).nodup hsorted_fst_nd
  have hTRperm : List.Perm toRemove (T.map (fun p => p.1)) :=
    List.mergeSort_perm _ _
  have hTRnd : toRemove.Nodup := hTRperm.nodup_iff.mpr hTnd
  have hTRsorted : toRemove.Pairwise
      (fun a b => (fun x y : ℕ => decide (y ≤ x)) a b = true) :=
    List.sorted_mergeSort natDesc_trans natDesc_total _
  have hTRdesc : toRemove.Pairwise (fun a b : ℕ => b < a) := by
    refine (hTRsorted.and hTRnd).imp ?_
    rintro a b ⟨h1, h2⟩
    have h3 : b ≤ a := of_decide_eq_true h1
    omega
  have hval2 : ∀ j ∈ toRemove, j < eps.length := by
    intro j hj
    have h1 : j ∈ T.map (fun p => p.1) := hTRperm.mem_iff.mp hj
    have h2 : j ∈ sorted.map (fun p => p.1) :=
      ((List.take_sublist _ _).map _).subset h1
    have h3 : j ∈ scored.map (fun p => p.1) := ((hperm.map _).mem_iff).mp h2
    rw [hfsts] at h3
    obtain ⟨p, hp, hpj⟩ := List.mem_map.mp h3
    rw [← hpj]
    exact fst_lt_of_mem_enum hp
  have hslen : sorted.length = eps.length := by
    rw [hsorted, List.length_mergeSort, hscored, List.length_map,
      List.enum_length]
  have hlenTR : toRemove.length = max 1 (maxE / 10) := by
    rw [hTRperm.length_eq, List.length_map, hT, List.length_take, hslen]
    omega
  have hev : evict_episodes maxE now eps =
      toRemove.foldl (fun acc j => if j < acc.length then acc.eraseIdx j else acc)
        eps := rfl
  refine ⟨toRemove, hlenTR, hTRnd, hval2, ?_, ?_, ?_⟩
  · rw [hev, foldl_eraseIdx_desc toRemove eps hTRdesc hval2]
  · rw [hev, foldl_eraseIdx_length toRemove eps hTRdesc hval2, hlenTR]
  · intro p hp hpR q hq hqR
    have hpT : (p.1, evictionScore now p.2) ∈ T := by
      have h1 : p.1 ∈ T.map (fun p => p.1) := hTRperm.mem_iff.mp hpR
      obtain ⟨t, htT, ht1⟩ := List.mem_map.mp h1
      have hts : t ∈ scored := hperm.mem_iff.mp (List.mem_of_mem_take htT)
      obtain ⟨r, hr, hrt⟩ := List.mem_map.mp hts
      have hr1 : r.1 = p.1 := by
        rw [← ht1, ← hrt]
      have hrp : r = p := enum_fst_inj hr hp hr1
      rw [← hrt, hrp] at htT
      exact htT
    have hqD : (q.1, evictionScore now q.2) ∈
        sorted.drop (max 1 (maxE / 10)) := by
      have hqs : (q.1, evictionScore now q.2) ∈ scored := by
        rw [hscored]
        exact List.mem_map.mpr ⟨q, hq, rfl⟩
      have hq2 : (q.1, evictionScore now q.2) ∈ sorted := hperm.mem_iff.mpr hqs
      rw [← List.take_append_drop (max 1 (maxE / 10)) sorted] at hq2
      rcases List.mem_append.mp hq2 with h1 | h2
      · exfalso
        apply hqR
        apply hTRperm.mem_iff.mpr
        exact List.mem_map.mpr ⟨(q.1, evictionScore now q.2), h1, rfl⟩
      · exact h2
    rw [← List.take_append_drop (max 1 (maxE / 10)) sorted] at hsortpw
    have hcross := (List.pairwise_append.mp hsortpw).2.2
      (p.1, evictionScore now p.2) hpT (q.1, evictionScore now q.2) hqD
    exact of_decide_eq_true hcross

/-- C3: starting from a within-bounds state, `add_episode` leaves the count
at most `max_episodic`; and when the push makes the count exceed
`max_episodic`, eviction runs synchronously on the pushed sequence before
the call returns, removing exactly the `max 1 (max_episodic / 10)`
lowest-value-density positions (score `importance / max(age_hours, 1)`, with
unparseable timestamps aged 1 hour) and keeping the other episodes in order. -/
theorem add_episode_eviction_spec (tm : TextModel) (hashW : String → ℕ)
    (maxE : ℕ) (now : ℚ) (ts : Option ℚ) (ui resp emo : String) (imp : ℤ)
    (s : MemState) (hbound : s.episodic.length ≤ maxE) :
    (add_episode tm hashW maxE now ts ui resp emo imp s).episodic.length ≤ maxE ∧
    (s.episodic.length + 1 > maxE →
      (add_episode tm hashW maxE now ts ui resp emo imp s).episodic =
        evict_episodes maxE now (s.episodic ++
          [(⟨ts, ui, resp, emo, imp, extract_keywords tm ui⟩ : Episode)]) ∧
      (add_episode tm hashW maxE now ts ui resp emo imp s).episodic.length =
        s.episodic.length + 1 - max 1 (maxE / 10) ∧
      ∃ removed : List ℕ,
        removed.length = max 1 (maxE / 10) ∧
        removed.Nodup ∧
        (∀ j ∈ removed, j < (s.episodic ++
          [(⟨ts, ui, resp, emo, imp, extract_keywords tm ui⟩ : Episode)]).length) ∧
        (add_episode tm hashW maxE now ts ui resp emo imp s).episodic =
          ((s.episodic ++
            [(⟨ts, ui, resp, emo, imp, extract_keywords tm ui⟩ : Episode)]).enum.filter
              (fun p => decide (p.1 ∉ removed))).map (fun p => p.2) ∧
        (∀ p ∈ (s.episodic ++
            [(⟨ts, ui, resp, emo, imp, extract_keywords tm ui⟩ : Episode)]).enum,
          p.1 ∈ removed →
          ∀ q ∈ (s.episodic ++
            [(⟨ts, ui, resp, emo, imp, extract_keywords tm ui⟩ : Episode)]).enum,
          q.1 ∉ removed →
          evictionScore now p.2 ≤ evictionScore now q.2)) := by
  have hplen : (s.episodic ++
      [(⟨ts, ui, resp, emo, imp, extract_keywords tm ui⟩ : Episode)]).length =
      s.episodic.length + 1 := by
    simp
  rw [add_episode_eq]
  by_cases hev : ((s.episodic ++
      [(⟨ts, ui, resp, emo, imp, extract_keywords tm ui⟩ : Episode)]).length > maxE)
  · rw [if_pos hev]
    have hepis : (evictState tm hashW maxE now
        ⟨s.episodic ++ [(⟨ts, ui, resp, emo, imp, extract_keywords tm ui⟩ : Episode)],
          index_text tm hashW s.index s.episodic.length (ui ++ " " ++ resp)⟩).episodic =
        evict_episodes maxE now (s.episodic ++
          [(⟨ts, ui, resp, emo, imp, extract_keywords tm ui⟩ : Episode)]) := rfl
    have hrc : max 1 (maxE / 10) ≤ (s.episodic ++
        [(⟨ts, ui, resp, emo, imp, extract_keywords tm ui⟩ : Episode)]).length := by
      rw [hplen]
      have := Nat.div_le_self maxE 10
      omega
    obtain ⟨removed, hlen, hnd, hvalr, hfil, hevlen, hscore⟩ :=
      evict_episodes_spec maxE now
        (s.episodic ++ [(⟨ts, ui, resp, emo, imp, extract_keywords tm ui⟩ : Episode)])
        hrc
    constructor
    · rw [hepis, hevlen, hplen]
      have := Nat.div_le_self maxE 10
      omega
    · intro hgt
      refine ⟨hepis, ?_, removed, hlen, hnd, hvalr, ?_, hscore⟩
      · rw [hepis, hevlen, hplen]
      · rw [hepis, hfil]
  · rw [if_neg hev]
    rw [hplen] at hev
    constructor
    · show (s.episodic ++
        [(⟨ts, ui, resp, emo, imp, extract_keywords tm ui⟩ : Episode)]).length ≤ maxE
      rw [hplen]
      omega
    · intro hgt
      omega

/-- C3, witness: a one-episode engine with `max_episodic = 1`; the second
`add_episode` triggers a synchronous eviction down to one episode. -/
theorem add_episode_eviction_spec_witness :
    (add_episode ⟨fun s => [s], fun s => s⟩ (fun _ => 0) 1 2 (some 1)
      "a" "b" "c" 1 ⟨[⟨some 0, "x", "y", "z", 1, []⟩], fun _ => []⟩).episodic =
      evict_episodes 1 2 ([⟨some 0, "x", "y", "z", 1, []⟩] ++
        [(⟨some 1, "a", "b", "c", 1,
          extract_keywords ⟨fun s => [s], fun s => s⟩ "a"⟩ : Episode)]) ∧
    (add_episode ⟨fun s => [s], fun s => s⟩ (fun _ => 0) 1 2 (some 1)
      "a" "b" "c" 1 ⟨[⟨some 0, "x", "y", "z", 1, []⟩], fun _ => []⟩).episodic.length =
      1 + 1 - max 1 (1 / 10) := by
  have h := (add_episode_eviction_spec ⟨fun s => [s], fun s => s⟩ (fun _ => 0)
    1 2 (some 1) "a" "b" "c" 1 ⟨[⟨some 0, "x", "y", "z", 1, []⟩], fun _ => []⟩
    (by decide)).2 (by decide)
  exact ⟨h.1, h.2.1⟩

end RustCore
